import Mathlib

/-!
Verification development for the `nn` neural-network library.

The development shallowly embeds the C data model (`struct ann_net`,
`struct ann_layer`, `struct ann_neuron`, `struct ann_synapse`) and the
operations the claims are about: the model API (`ann_add_layer`,
`ann_prepend_layer`, `ann_insert_after_layer`, `ann_add_neuron`,
`ann_add_synapse`), the feed-forward engine (`ann_process_pattern`), the
integrity checker (`ann_check_net`), the text codec loader (`ann_load_net`
over a cJSON document model) and the binary codec
(`ann_save_net_bin` / `ann_load_net_bin` over a token-stream model).

Embedding conventions:
- C linked lists become Lean lists, head first, in traversal order.
- Heap pointers to neurons become positions `(layer index, neuron index)`
  into the net's layer list; pointers to synapses become indices into a
  net-level synapse store.  Positions are created by the same code paths
  that create the pointers in C, and no modeled operation reorders the
  lists, so the translation is position-stable.
- `double` becomes `ℝ`; no modeled function branches on a real number.
- An operation whose C counterpart has undefined behavior on some input
  (a `NULL` dereference, a call through a `NULL` function pointer)
  returns `none` there.
- Fields the claims never touch (labels, the GSL random source, the
  min/max weight bounds, the `data` pointer) are omitted.
-/

namespace NN

/-- Firing-function constants from nn.h (`ANN_NULL` is the unknown code). -/
def ANN_NULL : Int := 0

/-- Firing-function code for `ann_neuron_fire_input`. -/
def ANN_INPUT : Int := 1

/-- Firing-function code for `ann_neuron_fire_bias`. -/
def ANN_BIAS : Int := 2

/-- Firing-function code for `ann_neuron_fire_sigmoid`. -/
def ANN_SIGMOID : Int := 3

/-- The firing behavior stored in a neuron's `fire_func` pointer.
`nullf` models a `NULL` function pointer (as left by the binary loader on
an unrecognized code); calling it is undefined behavior. -/
inductive FireFunc where
  | input
  | bias
  | sigmoid
  | nullf
deriving DecidableEq, Repr

/-- Position of a neuron in a net: (index of its layer in the layer chain,
index of the neuron in that layer's neuron list, both head first). -/
abbrev Pos := Nat × Nat

/-- struct ann_synapse: a directed weighted edge.  `from`/`to` pointers are
modeled as neuron positions. -/
@[ext]
structure ann_synapse where
  id : Int
  fromPos : Pos
  toPos : Pos
  weight : ℝ

/-- struct ann_neuron.  `inputs`/`outputs` are the synapse lists, holding
indices into the net's synapse store, head first. -/
@[ext]
structure ann_neuron where
  id : Int
  synapse_ctr : Int
  value : ℝ
  fire : FireFunc
  inputs : List Nat
  outputs : List Nat

/-- struct ann_layer.  `neurons` is the `neuron_head` list, head first. -/
@[ext]
structure ann_layer where
  id : Int
  neuron_ctr : Int
  num_neurons : Nat
  neurons : List ann_neuron

/-- struct ann_net.  `layers` is the chain reachable from `layer_head` in
`next` order; `synapses` is the store backing the synapse pointers. -/
@[ext]
structure ann_net where
  name : Option String
  description : Option String
  layer_ctr : Int
  num_layers : Nat
  layers : List ann_layer
  synapses : List ann_synapse

/-- Update the element at an index of a list in place (identity when the
index is out of range).  Used to model writes through pointers. -/
def updList : List α → Nat → (α → α) → List α
  | [], _, _ => []
  | a :: as, 0, f => f a :: as
  | a :: as, n + 1, f => a :: updList as n f

/-- The neuron a position points at, if any. -/
def getNeuron (net : ann_net) (p : Pos) : Option ann_neuron :=
  match net.layers.get? p.1 with
  | some l => l.neurons.get? p.2
  | none => none

/-- The value field of the neuron at a position (0 when the position is
dangling; every modeled use is at a live position). -/
def getValue (net : ann_net) (p : Pos) : ℝ :=
  match getNeuron net p with
  | some n => n.value
  | none => 0

/-- Write through a neuron pointer: apply `f` to the neuron at `p`. -/
def modifyNeuron (net : ann_net) (p : Pos) (f : ann_neuron → ann_neuron) : ann_net :=
  let g : ann_layer → ann_layer := fun l => { l with neurons := updList l.neurons p.2 f }
  { net with layers := updList net.layers p.1 g }

/-- Write the value field of the neuron at `p` (a `neuron->value = v`). -/
def setValue (net : ann_net) (p : Pos) (v : ℝ) : ann_net :=
  modifyNeuron net p (fun n => { n with value := v })

/-- Apply `f` to the layer at index `li` of the net. -/
def modifyLayer (net : ann_net) (li : Nat) (f : ann_layer → ann_layer) : ann_net :=
  { net with layers := updList net.layers li f }

/-- ann_create_net (nn.c): fresh empty net; counters start at zero,
name and description unset. -/
def ann_create_net : ann_net :=
  { name := none, description := none, layer_ctr := 0, num_layers := 0,
    layers := [], synapses := [] }

/-- ann_create_layer (nn.c): the freshly malloc'd layer, with
`layer->id = 0` and zeroed counters.  The linking of `prev`/`next`
pointers is realized by where the callers place the layer in the chain. -/
def ann_create_layer : ann_layer :=
  { id := 0, neuron_ctr := 0, num_neurons := 0, neurons := [] }

/-- ann_add_layer (nn.c): appends a fresh layer at `layer_last`, assigns
`layer->id = ann->layer_ctr++` and bumps `num_layers`.  Also returns the
index of the new layer (the C function returns the layer pointer). -/
def ann_add_layer (net : ann_net) : ann_net × Nat :=
  ({ net with
      layers := net.layers ++ [{ ann_create_layer with id := net.layer_ctr }],
      layer_ctr := net.layer_ctr + 1,
      num_layers := net.num_layers + 1 }, net.layers.length)

/-- ann_prepend_layer (nn.c): `ann->layer_head = ann_create_layer(NULL,
ann->layer_head, ...)`.  The new layer keeps `ann_create_layer`'s id 0;
`layer_ctr`, `num_layers` and `layer_last` are not updated. -/
def ann_prepend_layer (net : ann_net) : ann_net :=
  { net with layers := ann_create_layer :: net.layers }

/-- ann_insert_after_layer (nn.c): `ann_create_layer(layer, layer->next,
...)` splices a fresh layer (id 0) after the layer at index `li`; no
counter is consulted or updated. -/
def ann_insert_after_layer (net : ann_net) (li : Nat) : ann_net :=
  { net with layers := net.layers.take (li + 1) ++ ann_create_layer :: net.layers.drop (li + 1) }

/-- ann_create_neuron (nn.c): zeroed neuron, `value = 0.0`, empty synapse
lists.  (`synapse_ctr` is left uninitialized by the C code but is only
ever read after `ann_add_neuron` ran; we use 0, matching every observable
use.) -/
def ann_create_neuron (fire : FireFunc) : ann_neuron :=
  { id := 0, synapse_ctr := 0, value := 0, fire := fire, inputs := [], outputs := [] }

/-- ann_add_neuron (nn.c) on the layer at index `li`: bump `num_neurons`,
assign `neuron->id = layer->neuron_ctr++`, set the firing function and
push the neuron at the head of the layer's list. -/
def ann_add_neuron (net : ann_net) (li : Nat) (fire : FireFunc) : ann_net :=
  modifyLayer net li (fun l =>
    { l with
        num_neurons := l.num_neurons + 1,
        neuron_ctr := l.neuron_ctr + 1,
        neurons := { ann_create_neuron fire with id := l.neuron_ctr } :: l.neurons })

/-- ann_add_neurons (nn.c): add `count` neurons one by one (allocation is
assumed to succeed in this model; the rollback path is not exercised). -/
def ann_add_neurons (net : ann_net) (li : Nat) (count : Nat) (fire : FireFunc) : ann_net :=
  match count with
  | 0 => net
  | c + 1 => ann_add_neurons (ann_add_neuron net li fire) li c fire

/-- ann_add_synapse (nn.c) with all three allocations succeeding, at net
scope for the loaders: create the synapse with `id = from->synapse_ctr++`,
then push it onto `from->outputs` and `to->inputs`.  The new synapse is
appended to the store; its index is the pointer.  (The allocation-failure
behavior of the same C function is modeled separately by
`ann_add_synapse_alloc` for the rollback claim.) -/
def ann_add_synapse (net : ann_net) (fromPos toPos : Pos) (w : ℝ) : ann_net :=
  let sref := net.synapses.length
  match getNeuron net fromPos with
  | none => net
  | some fn =>
    let sid := fn.synapse_ctr
    let net1 := modifyNeuron net fromPos (fun n =>
      { n with synapse_ctr := n.synapse_ctr + 1, outputs := sref :: n.outputs })
    let net2 := modifyNeuron net1 toPos (fun n => { n with inputs := sref :: n.inputs })
    { net2 with synapses := net2.synapses ++
        [{ id := sid, fromPos := fromPos, toPos := toPos, weight := w }] }

/-! ### Feed-forward engine (nn.c) -/

/-- ann_sigmoid (nn.c): `1.0 / (1.0 + exp(-x))`. -/
noncomputable def ann_sigmoid (x : ℝ) : ℝ := 1 / (1 + Real.exp (-x))

/-- Weighted-sum loop of ann_neuron_fire_sigmoid: `total +=
it->synapse->weight * it->synapse->from->value` over the input list.
(Summed in a right fold; real addition makes the order immaterial.) -/
noncomputable def synTotal (net : ann_net) : List Nat → ℝ
  | [] => 0
  | r :: rest =>
    (match net.synapses.get? r with
     | some s => s.weight * getValue net s.fromPos
     | none => 0) + synTotal net rest

/-- The value written by `neuron->fire_func(neuron, NULL)`:
`ann_neuron_fire_input` leaves the value, `ann_neuron_fire_bias` writes
1.0, `ann_neuron_fire_sigmoid` writes the sigmoid of the weighted input
sum; a `NULL` pointer cannot be called (`none`). -/
noncomputable def fireValue (net : ann_net) (n : ann_neuron) : Option ℝ :=
  match n.fire with
  | .input => some n.value
  | .bias => some 1
  | .sigmoid => some (ann_sigmoid (synTotal net n.inputs))
  | .nullf => none

/-- Input-copy loop of ann_process_pattern: values of the first layer's
neurons are overwritten positionally; trailing neurons (and trailing
inputs) are left alone. -/
def copyVals : List ℝ → List ann_neuron → List ann_neuron
  | _, [] => []
  | [], ns => ns
  | v :: vs, n :: ns => { n with value := v } :: copyVals vs ns

/-- Set up the inputs on the first layer (the first loop of
ann_process_pattern). -/
def setInputs (net : ann_net) (v : List ℝ) : ann_net :=
  modifyLayer net 0 (fun l => { l with neurons := copyVals v l.neurons })

/-- Inner loop of ann_process_pattern over one layer's neuron list:
fire each neuron in list order, writing its value in place.  `ns` is the
layer's list as of entering the layer (each neuron is written exactly
once, at its own step, so the snapshot agrees with the live list). -/
noncomputable def processNeurons (j : Nat) : List ann_neuron → Nat → ann_net → Option ann_net
  | [], _, net => some net
  | n :: rest, i, net =>
    match fireValue net n with
    | none => none
    | some v => processNeurons j rest (i + 1) (setValue net (j, i) v)

/-- Outer loop of ann_process_pattern over the layers after the first;
`last` tracks the C `last` pointer (as a layer index). -/
noncomputable def processFrom :
    List ann_layer → Nat → ann_net → Option Nat → Option (Option Nat × ann_net)
  | [], _, net, last => some (last, net)
  | l :: ls, j, net, _ =>
    match processNeurons j l.neurons 0 net with
    | none => none
    | some net' => processFrom ls (j + 1) net' (some j)

/-- ann_process_pattern (nn.c): copy the input vector into the first
layer, then fire every neuron of every subsequent layer in order; returns
the last layer processed (`none` when only one layer exists) together
with the final net.  The outer `none` is the undefined behavior of
dereferencing `ann->layer_head` on a net with no layers, or of calling a
`NULL` firing function. -/
noncomputable def ann_process_pattern (net : ann_net) (v : List ℝ) :
    Option (Option Nat × ann_net) :=
  match net.layers with
  | [] => none
  | _ :: rest => processFrom rest 1 (setInputs net v) none

/-! ### Integrity checker (nn.c) -/

/-- While-loop scan of ann_check_synapse over one synapse list:
`some true` means the loop broke having found the synapse; `none` means
the loop fell off the end, after which the C code dereferences the `NULL`
iterator (`l->synapse`) — undefined behavior.  (The `l->synapse == NULL`
early-false branch cannot fire: every list node stores a live synapse.) -/
def scanSynList (l : List Nat) (sref : Nat) : Option Bool :=
  match l with
  | [] => none
  | r :: rest => if r = sref then some true else scanSynList rest sref

/-- ann_check_synapse (nn.c): scan `synapse->to->inputs`, then
`synapse->from->outputs`, for the synapse itself.  `none` models the
undefined behavior reached when a scan does not find the synapse. -/
def ann_check_synapse (net : ann_net) (sref : Nat) : Option Bool :=
  match net.synapses.get? sref with
  | none => some false
  | some s =>
    match getNeuron net s.toPos with
    | none => none
    | some toN =>
      match scanSynList toN.inputs sref with
      | none => none
      | some false => some false
      | some true =>
        match getNeuron net s.fromPos with
        | none => none
        | some fromN =>
          match scanSynList fromN.outputs sref with
          | none => none
          | some b => some b

/-- Traversal of one neuron's output synapses by ann_traverse_neuron with
only the out-synapse visitor set (as instantiated by ann_check_net);
short-circuits on `false` and propagates undefined behavior. -/
def checkOutputs (net : ann_net) : List Nat → Option Bool
  | [] => some true
  | r :: rest =>
    match ann_check_synapse net r with
    | none => none
    | some false => some false
    | some true => checkOutputs net rest

/-- Per-layer neuron walk of ann_traverse_layer under ann_check_net's
visitors (no neuron visitor). -/
def checkNeurons (net : ann_net) : List ann_neuron → Option Bool
  | [] => some true
  | n :: rest =>
    match checkOutputs net n.outputs with
    | none => none
    | some false => some false
    | some true => checkNeurons net rest

/-- Layer walk of ann_traverse_net under ann_check_net's visitors.  The
ann_check_layer visitor asserts `layer->prev->next == layer`, which holds
by construction in the list embedding of the chain, so it never fails
here. -/
def checkLayers (net : ann_net) : List ann_layer → Option Bool
  | [] => some true
  | l :: rest =>
    match checkNeurons net l.neurons with
    | none => none
    | some false => some false
    | some true => checkLayers net rest

/-- ann_check_net (nn.c).  The head/last pointer checks
(`layer_head->prev == NULL`, `layer_last->next == NULL`) hold by
construction in the list embedding; the traversal applies
ann_check_synapse to every synapse reachable through an output list. -/
def ann_check_net (net : ann_net) : Option Bool :=
  checkLayers net net.layers

/-! ### ann_add_synapse with explicit allocation outcomes (nn.c)

Local model for the rollback claim: only the fields `ann_add_synapse`
touches on its two (distinct) endpoint neurons, with the outcome of each
of the three `malloc` calls made explicit. -/

/-- The synapse record as allocated by `ann_add_synapse`. -/
@[ext]
structure syn5 where
  id : Int
  weight : ℝ

/-- The per-neuron state `ann_add_synapse` reads or writes. -/
@[ext]
structure neuron5 where
  synapse_ctr : Int
  inputs : List syn5
  outputs : List syn5

/-- ann_add_synapse (nn.c) with the results of its three allocations
(synapse, `head_from` node, `head_to` node) given by `a1 a2 a3`.  The two
endpoints are distinct neurons; returns the synapse (or `none` on
failure) and the resulting states of `from` and `to`. -/
def ann_add_synapse_alloc (a1 a2 a3 : Bool) (fromN toN : neuron5) (w : ℝ) :
    Option syn5 × neuron5 × neuron5 :=
  if a1 = false then (none, fromN, toN)
  else
    let s : syn5 := { id := fromN.synapse_ctr, weight := w }
    let fromN1 : neuron5 := { fromN with synapse_ctr := fromN.synapse_ctr + 1 }
    if a2 = false then (none, fromN1, toN)
    else if a3 = false then (none, fromN1, toN)
    else (some s, { fromN1 with outputs := s :: fromN1.outputs },
          { toN with inputs := s :: toN.inputs })

/-! ### Text codec (io.c): cJSON document model and ann_load -/

/-- A cJSON value.  A number item carries both `valueint` and
`valuedouble`, as the cJSON struct does. -/
inductive JVal where
  | num (i : Int) (x : ℝ)
  | str (s : String)
  | arr (items : List JVal)
  | obj (fields : List (String × JVal))

/-- First field with a matching name (cJSON_GetObjectItem). -/
def jLookup : List (String × JVal) → String → Option JVal
  | [], _ => none
  | (k, v) :: rest, key => if k = key then some v else jLookup rest key

/-- cJSON_GetObjectItem: `none` on a missing field or a non-object. -/
def getItem : JVal → String → Option JVal
  | .obj fields, key => jLookup fields key
  | _, _ => none

/-- The `valueint` field (0 for non-number items). -/
def jvalInt : JVal → Int
  | .num i _ => i
  | _ => 0

/-- The `valuedouble` field (0 for non-number items). -/
def jvalFloat : JVal → ℝ
  | .num _ x => x
  | _ => 0

/-- The `valuestring` field: non-NULL exactly for string items. -/
def jvalString : JVal → Option String
  | .str s => some s
  | _ => none

/-- The `valuestring` contents where the C code has already ensured the
item is a string (strcmp targets). -/
def jvalStr0 : JVal → String
  | .str s => s
  | _ => ""

/-- Items of an array (cJSON_GetArraySize / cJSON_GetArrayItem; a
non-array has size 0). -/
def jArr : JVal → List JVal
  | .arr xs => xs
  | _ => []

/-- Convenience: items of an optional array field. -/
def jArr0 : Option JVal → List JVal
  | some v => jArr v
  | none => []

/-- The transient resolution index: key `(layer-id, neuron-id)` (the C
key string `"%d,%d"` is injective in the pair) to the neuron's position. -/
abbrev Hash := List ((Int × Int) × Pos)

/-- HASH_FIND_STR over the index. -/
def findHash : Hash → (Int × Int) → Option Pos
  | [], _ => none
  | (k, p) :: rest, key => if k = key then some p else findHash rest key

/-- ann_insert_neuron_hash (io.c): a duplicate key is refused (`none`),
otherwise the entry is added. -/
def ann_insert_neuron_hash (key : Int × Int) (p : Pos) (hash : Hash) : Option Hash :=
  match findHash hash key with
  | some _ => none
  | none => some ((key, p) :: hash)

/-- ann_load_neuron (io.c): requires `neuron-id` (else `false` with
nothing changed), overwrites the neuron's id, decodes `firing-function`
("sigmoid" / "bias" / anything else or absent → input), then tries to
index the neuron under `(layer-id, neuron-id)`; a duplicate key yields
`false` with the neuron already modified.  `layerId` is
`neuron->layer->id`; `p` is the neuron's position (its address). -/
def ann_load_neuron (json_neuron : JVal) (n : ann_neuron) (layerId : Int) (p : Pos)
    (hash : Hash) : Bool × ann_neuron × Hash :=
  match getItem json_neuron "neuron-id" with
  | none => (false, n, hash)
  | some key =>
    let n1 : ann_neuron := { n with id := jvalInt key }
    let n2 : ann_neuron :=
      match getItem json_neuron "firing-function" with
      | some fkey =>
        if jvalStr0 fkey = "sigmoid" then { n1 with fire := FireFunc.sigmoid }
        else if jvalStr0 fkey = "bias" then { n1 with fire := FireFunc.bias }
        else { n1 with fire := FireFunc.input }
      | none => { n1 with fire := FireFunc.input }
    match ann_insert_neuron_hash (layerId, n2.id) p hash with
    | none => (false, n2, hash)
    | some h => (true, n2, h)

/-- Neuron loop of ann_load_layer (io.c): walk the freshly added neurons
(position 0 is the list head, which is the neuron ann_add_neurons
returned) against the JSON entries.  The C code discards
ann_load_neuron's return value, so a failure does not stop the loop. -/
def loadNeuronsText (li : Nat) (lid : Int) :
    List JVal → Nat → ann_net → Hash → ann_net × Hash
  | [], _, net, hash => (net, hash)
  | jn :: rest, i, net, hash =>
    match getNeuron net (li, i) with
    | none => (net, hash)
    | some n =>
      let r := ann_load_neuron jn n lid (li, i) hash
      loadNeuronsText li lid rest (i + 1) (modifyNeuron net (li, i) (fun _ => r.2.1)) r.2.2

/-- ann_load_layer (io.c): append a layer, overwrite its id with the
required `layer-id` (failing without it), advance the net's layer
counter only when the stored id is strictly greater than it, then add
and load the declared neurons. -/
def ann_load_layer (json_layer : JVal) (json_neurons : List JVal) (net : ann_net)
    (hash : Hash) : Option (ann_net × Hash) :=
  let al := ann_add_layer net
  let net1 := al.1
  let li := al.2
  match getItem json_layer "layer-id" with
  | none => none
  | some key =>
    let lid := jvalInt key
    let net2 := modifyLayer net1 li (fun l => { l with id := lid })
    let net3 : ann_net :=
      { net2 with layer_ctr := if lid > net2.layer_ctr then lid + 1 else net2.layer_ctr }
    if json_neurons.length = 0 then some (net3, hash)
    else
      let net4 := ann_add_neurons net3 li json_neurons.length FireFunc.input
      let r := loadNeuronsText li lid json_neurons 0 net4 hash
      some r

/-- Layer loop of pass 1 of ann_load_net (io.c). -/
def textPass1 : List JVal → ann_net → Hash → Option (ann_net × Hash)
  | [], net, hash => some (net, hash)
  | jl :: rest, net, hash =>
    match ann_load_layer jl (jArr0 (getItem jl "neurons")) net hash with
    | none => none
    | some r => textPass1 rest r.1 r.2

/-- One `{layer-from, neuron-from, weight}` entry of pass 2
(ann_load_synapses, io.c): all three fields are required; the source key
must resolve in the index; then the synapse is connected. -/
def ann_load_synapse_entry (js : JVal) (toPos : Pos) (net : ann_net) (hash : Hash) :
    Option ann_net :=
  match getItem js "layer-from", getItem js "neuron-from", getItem js "weight" with
  | some jlf, some jnf, some jw =>
    match findHash hash (jvalInt jlf, jvalInt jnf) with
    | none => none
    | some fromPos => some (ann_add_synapse net fromPos toPos (jvalFloat jw))
  | _, _, _ => none

/-- Synapse-entry loop of one neuron in pass 2. -/
def synEntriesLoop : List JVal → Pos → ann_net → Hash → Option ann_net
  | [], _, net, _ => some net
  | je :: rest, toPos, net, hash =>
    match ann_load_synapse_entry je toPos net hash with
    | none => none
    | some net' => synEntriesLoop rest toPos net' hash

/-- Neuron loop of pass 2 (ann_load_synapses, io.c).  `neuron-id` is read
and the index entry dereferenced without null checks; their absence is
undefined behavior (`none`). -/
def synNeuronsLoop (lid : Int) (hash : Hash) : List JVal → ann_net → Option ann_net
  | [], net => some net
  | jn :: rest, net =>
    match getItem jn "neuron-id" with
    | none => none
    | some jnid =>
      match findHash hash (lid, jvalInt jnid) with
      | none => none
      | some toPos =>
        match getItem jn "synapses" with
        | none => synNeuronsLoop lid hash rest net
        | some jsyns =>
          match synEntriesLoop (jArr jsyns) toPos net hash with
          | none => none
          | some net' => synNeuronsLoop lid hash rest net'

/-- Layer loop of pass 2 (ann_load_synapses, io.c); `layer-id` is read
without a null check (pass 1 guaranteed its presence). -/
def synLayersLoop (hash : Hash) : List JVal → ann_net → Option ann_net
  | [], net => some net
  | jl :: rest, net =>
    match getItem jl "layer-id" with
    | none => none
    | some jlid =>
      match synNeuronsLoop (jvalInt jlid) hash (jArr0 (getItem jl "neurons")) net with
      | none => none
      | some net' => synLayersLoop hash rest net'

/-- ann_load_net (io.c): create the net, take name/description when they
are string fields, run pass 1 (layers and neurons, building the index)
and pass 2 (synapses).  Any failure destroys the net and returns no
result (`none`). -/
def ann_load_net (json_ann : JVal) : Option ann_net :=
  let net0 := ann_create_net
  let net1 : ann_net :=
    match (getItem json_ann "ann-name").bind jvalString with
    | some s => { net0 with name := some s }
    | none => net0
  let net2 : ann_net :=
    match (getItem json_ann "ann-description").bind jvalString with
    | some s => { net1 with description := some s }
    | none => net1
  match getItem json_ann "layers" with
  | none => some net2
  | some jlayers =>
    match textPass1 (jArr jlayers) net2 [] with
    | none => none
    | some r =>
      match synLayersLoop r.2 (jArr jlayers) r.1 with
      | none => none
      | some net4 => some net4

/-! ### Binary codec (io.c)

The byte stream is modeled at field granularity: one token per `fwrite`
of an `int` or a `double`, and one token for a length-prefixed character
run.  The fixed-size synapse record is five tokens; `fread` of a record
succeeds only when all five are available, and a shorter remainder sets
the end-of-file indicator (as a short read at the end of a file does). -/

/-- One field of the binary stream. -/
inductive Tok where
  | i (n : Int)
  | d (x : ℝ)
  | s (cs : String)

/-- Fire-function code written by ann_save_neurons_bin (io.c).  The C
loop tests `neuron->fire_func` — the list head passed as the parameter —
instead of `n->fire_func` in its first branch, so the input test is about
the head of the layer's list, not the neuron being written. -/
def ann_neuron_fire_code (headN n : ann_neuron) : Int :=
  if headN.fire = FireFunc.input then ANN_INPUT
  else if n.fire = FireFunc.bias then ANN_BIAS
  else if n.fire = FireFunc.sigmoid then ANN_SIGMOID
  else ANN_NULL

/-- Record loop of ann_save_neurons_bin: id then fire code per neuron. -/
def ann_save_neurons_recs (headN : ann_neuron) : List ann_neuron → List Tok
  | [] => []
  | n :: rest =>
    Tok.i n.id :: Tok.i (ann_neuron_fire_code headN n) :: ann_save_neurons_recs headN rest

/-- ann_save_neurons_bin (io.c), over a layer's neuron list. -/
def ann_save_neurons_bin : List ann_neuron → List Tok
  | [] => []
  | hd :: rest => ann_save_neurons_recs hd (hd :: rest)

/-- First loop of ann_save_layers_bin: all layer headers (id, count). -/
def ann_save_layer_headers : List ann_layer → List Tok
  | [] => []
  | l :: rest => Tok.i l.id :: Tok.i (Int.ofNat l.num_neurons) :: ann_save_layer_headers rest

/-- Second loop of ann_save_layers_bin: the neuron records, layer-major. -/
def ann_save_neuron_secs : List ann_layer → List Tok
  | [] => []
  | l :: rest => ann_save_neurons_bin l.neurons ++ ann_save_neuron_secs rest

/-- Id of the layer at an index (`layer->id` through a live pointer). -/
def layerIdAt (net : ann_net) (li : Nat) : Int :=
  match net.layers.get? li with
  | some l => l.id
  | none => 0

/-- Id of the neuron at a position (`neuron->id` through a live pointer). -/
def neuronIdAt (net : ann_net) (p : Pos) : Int :=
  match getNeuron net p with
  | some n => n.id
  | none => 0

/-- One record written by ann_save_synapses_bin:
`(from->layer->id, from->id, to->layer->id, to->id, weight)`. -/
def ann_save_synapse_rec (net : ann_net) (r : Nat) : List Tok :=
  match net.synapses.get? r with
  | none => []
  | some s =>
    [Tok.i (layerIdAt net s.fromPos.1), Tok.i (neuronIdAt net s.fromPos),
     Tok.i (layerIdAt net s.toPos.1), Tok.i (neuronIdAt net s.toPos), Tok.d s.weight]

/-- ann_save_synapses_bin (io.c) over one output list. -/
def ann_save_synapses_bin (net : ann_net) : List Nat → List Tok
  | [] => []
  | r :: rest => ann_save_synapse_rec net r ++ ann_save_synapses_bin net rest

/-- Per-neuron synapse loop of ann_save_net_bin. -/
def saveSynsNeurons (net : ann_net) : List ann_neuron → List Tok
  | [] => []
  | n :: rest => ann_save_synapses_bin net n.outputs ++ saveSynsNeurons net rest

/-- Per-layer synapse loop of ann_save_net_bin. -/
def saveSynsLayers (net : ann_net) : List ann_layer → List Tok
  | [] => []
  | l :: rest => saveSynsNeurons net l.neurons ++ saveSynsLayers net rest

/-- Length-prefixed character run (`strlen` then the bytes; a NULL or
empty string writes just the zero length). -/
def lenStrToks (os : Option String) : List Tok :=
  let s := os.getD ""
  if s.length = 0 then [Tok.i 0] else [Tok.i (Int.ofNat s.length), Tok.s s]

/-- ann_save_net_bin (io.c): name, description, layer count, layer
headers, neuron records, then every neuron's output synapses. -/
def ann_save_net_bin (net : ann_net) : List Tok :=
  lenStrToks net.name ++ lenStrToks net.description ++
  Tok.i (Int.ofNat net.num_layers) :: ann_save_layer_headers net.layers ++
  ann_save_neuron_secs net.layers ++ saveSynsLayers net net.layers

/-- fread of one `int` field. -/
def readInt : List Tok → Option (Int × List Tok)
  | Tok.i n :: rest => some (n, rest)
  | _ => none

/-- fread of `len` characters (the stored run carries its length). -/
def readStr : Int → List Tok → Option (String × List Tok)
  | len, Tok.s cs :: rest => if (cs.length : Int) = len then some (cs, rest) else none
  | _, _ => none

/-- Length-prefixed read used for name and description in
ann_load_net_bin: zero length means the field was absent. -/
def readLenStr (tk : List Tok) : Option (Option String × List Tok) :=
  match readInt tk with
  | none => none
  | some (i, tk1) =>
    if i = 0 then some (none, tk1)
    else
      match readStr i tk1 with
      | none => none
      | some (cs, tk2) => some (some cs, tk2)

/-- ann_load_layer_bin (io.c): read a layer id and neuron count, append a
layer, overwrite its id (no counter is advanced), and add that many
neurons with a NULL firing function.  With a count of zero (or negative)
`ann_add_neurons` returns NULL and the C function fails. -/
def ann_load_layer_bin (net : ann_net) (tk : List Tok) : Option (ann_net × List Tok) :=
  match readInt tk with
  | none => none
  | some (i, tk1) =>
    match readInt tk1 with
    | none => none
    | some (j, tk2) =>
      let al := ann_add_layer net
      let net1 := modifyLayer al.1 al.2 (fun l => { l with id := i })
      let net2 := ann_add_neurons net1 al.2 j.toNat FireFunc.nullf
      if j.toNat = 0 then none else some (net2, tk2)

/-- First loop of ann_load_layers_bin: `num_layers` layer loads. -/
def binLayersLoopA : Nat → ann_net → List Tok → Option (ann_net × List Tok)
  | 0, net, tk => some (net, tk)
  | k + 1, net, tk =>
    match ann_load_layer_bin net tk with
    | none => none
    | some r => binLayersLoopA k r.1 r.2

/-- switch over the stored firing-function code (io.c); the default case
leaves the function pointer NULL. -/
def fireOfCode (code : Int) : FireFunc :=
  if code = ANN_INPUT then FireFunc.input
  else if code = ANN_BIAS then FireFunc.bias
  else if code = ANN_SIGMOID then FireFunc.sigmoid
  else FireFunc.nullf

/-- Inner neuron loop of ann_load_layers_bin's second pass over the layer
at index `li` with `cnt` neurons still to read at position `i`: read id
and code, overwrite the neuron, and index it under
`(n->layer->id, n->id)` — a duplicate key fails the load here. -/
def binNeuronsLoopB (li : Nat) : Nat → Nat → ann_net → Hash → List Tok →
    Option (ann_net × Hash × List Tok)
  | 0, _, net, hash, tk => some (net, hash, tk)
  | cnt + 1, i, net, hash, tk =>
    match readInt tk with
    | none => none
    | some (nid, tk1) =>
      match readInt tk1 with
      | none => none
      | some (code, tk2) =>
        let net' := modifyNeuron net (li, i)
          (fun n => { n with id := nid, fire := fireOfCode code })
        match ann_insert_neuron_hash (layerIdAt net' li, nid) (li, i) hash with
        | none => none
        | some h => binNeuronsLoopB li cnt (i + 1) net' h tk2

/-- Outer layer loop of ann_load_layers_bin's second pass. -/
def binLayersLoopB : List ann_layer → Nat → ann_net → Hash → List Tok →
    Option (ann_net × Hash × List Tok)
  | [], _, net, hash, tk => some (net, hash, tk)
  | l :: rest, li, net, hash, tk =>
    match binNeuronsLoopB li l.neurons.length 0 net hash tk with
    | none => none
    | some r => binLayersLoopB rest (li + 1) r.1 r.2.1 r.2.2

/-- ann_load_layers_bin (io.c): read the layer count, load the layer
headers, then read every neuron's id and fire code layer-major, building
the resolution index. -/
def ann_load_layers_bin (net : ann_net) (tk : List Tok) :
    Option (ann_net × Hash × List Tok) :=
  match readInt tk with
  | none => none
  | some (num_layers, tk1) =>
    match binLayersLoopA num_layers.toNat net tk1 with
    | none => none
    | some r => binLayersLoopB r.1.layers 0 r.1 [] r.2

/-- ann_load_synapses_bin (io.c): read five-field records until fread
fails, resolving both endpoints through the index.  When fewer than five
fields remain, fread returns 0 with the end-of-file indicator set, so the
`feof` guard passes and the leftover is silently accepted. -/
def ann_load_synapses_bin (hash : Hash) : List Tok → ann_net → Bool × ann_net
  | Tok.i lf :: Tok.i nf :: Tok.i lt :: Tok.i nt :: Tok.d w :: rest, net =>
    (match findHash hash (lf, nf) with
     | none => (false, net)
     | some fromPos =>
       match findHash hash (lt, nt) with
       | none => (false, net)
       | some toPos => ann_load_synapses_bin hash rest (ann_add_synapse net fromPos toPos w))
  | _, net => (true, net)

/-- ann_load_net_bin (io.c): name, description, layers and neurons, then
the synapse records; any failure destroys the net (`none`). -/
def ann_load_net_bin (tk : List Tok) : Option ann_net :=
  let net0 := ann_create_net
  match readLenStr tk with
  | none => none
  | some (nm, tk1) =>
    match readLenStr tk1 with
    | none => none
    | some (ds, tk2) =>
      let net1 : ann_net := { net0 with name := nm, description := ds }
      match ann_load_layers_bin net1 tk2 with
      | none => none
      | some r =>
        let r2 := ann_load_synapses_bin r.2.1 r.2.2 r.1
        if r2.1 then some r2.2 else none

/-! ### Structured serialized forms

For the id-stability claim the "serialized form" is quantified over
structured documents together with their encoding into the wire format
(the encoders mirror §4.4/§4.5 of the format exactly); every loadable
stream is the encoding of such a document. -/

/-- One neuron of a binary-format net: stored id and fire code. -/
structure BinNeuronDoc where
  id : Int
  code : Int

/-- One layer of a binary-format net. -/
structure BinLayerDoc where
  id : Int
  neurons : List BinNeuronDoc

/-- A binary-format net document. -/
structure BinNetDoc where
  name : Option String
  description : Option String
  layers : List BinLayerDoc
  syns : List (Int × Int × Int × Int × ℝ)

/-- Neuron records of one layer, in order. -/
def encodeBinNeurons : List BinNeuronDoc → List Tok
  | [] => []
  | n :: rest => Tok.i n.id :: Tok.i n.code :: encodeBinNeurons rest

/-- Layer headers, in order. -/
def encodeBinHeaders : List BinLayerDoc → List Tok
  | [] => []
  | l :: rest => Tok.i l.id :: Tok.i (Int.ofNat l.neurons.length) :: encodeBinHeaders rest

/-- Neuron sections, layer-major. -/
def encodeBinNeuronSecs : List BinLayerDoc → List Tok
  | [] => []
  | l :: rest => encodeBinNeurons l.neurons ++ encodeBinNeuronSecs rest

/-- Trailing synapse records. -/
def encodeBinSyns : List (Int × Int × Int × Int × ℝ) → List Tok
  | [] => []
  | (lf, nf, lt, nt, w) :: rest =>
    Tok.i lf :: Tok.i nf :: Tok.i lt :: Tok.i nt :: Tok.d w :: encodeBinSyns rest

/-- The §4.5 wire layout of a binary net document. -/
def encodeBinNet (d : BinNetDoc) : List Tok :=
  lenStrToks d.name ++ lenStrToks d.description ++
  Tok.i (Int.ofNat d.layers.length) :: encodeBinHeaders d.layers ++
  encodeBinNeuronSecs d.layers ++ encodeBinSyns d.syns

/-- One serialized synapse entry of the text format. -/
structure TextSynDoc where
  layerFrom : Int
  neuronFrom : Int
  weight : ℝ

/-- One serialized neuron of the text format. -/
structure TextNeuronDoc where
  id : Int
  fire : String
  syns : List TextSynDoc

/-- One serialized layer of the text format. -/
structure TextLayerDoc where
  id : Int
  neurons : List TextNeuronDoc

/-- A text-format net document. -/
structure TextNetDoc where
  name : String
  layers : List TextLayerDoc

/-- The `{layer-from, neuron-from, weight}` object of §4.4. -/
def encodeTextSyn (s : TextSynDoc) : JVal :=
  JVal.obj [("layer-from", JVal.num s.layerFrom 0), ("neuron-from", JVal.num s.neuronFrom 0),
            ("weight", JVal.num 0 s.weight)]

/-- A serialized neuron object: id, firing-function name, and a synapses
array only when non-empty (as ann_neuron_save emits). -/
def encodeTextNeuron (n : TextNeuronDoc) : JVal :=
  JVal.obj ([("neuron-id", JVal.num n.id 0), ("firing-function", JVal.str n.fire)] ++
    (if n.syns.length = 0 then [] else [("synapses", JVal.arr (n.syns.map encodeTextSyn))]))

/-- A serialized layer object. -/
def encodeTextLayer (l : TextLayerDoc) : JVal :=
  JVal.obj [("layer-id", JVal.num l.id 0), ("neurons", JVal.arr (l.neurons.map encodeTextNeuron))]

/-- A serialized net object of the text format. -/
def encodeTextNet (d : TextNetDoc) : JVal :=
  JVal.obj [("ann-name", JVal.str d.name), ("layers", JVal.arr (d.layers.map encodeTextLayer))]

/-! ### Observation functions and expected shapes -/

/-- Firing tags of every neuron of a net, layer by layer. -/
def fireTags (net : ann_net) : List (List FireFunc) :=
  net.layers.map (fun l => l.neurons.map ann_neuron.fire)

/-- The value a neuron's firing step writes, as a function of the state
it reads: pass-through keeps the value, bias writes 1.0, sigmoid writes
the sigmoid of the weighted sum over the input synapses (the NULL case
is excluded wherever this is used). -/
noncomputable def fireSpecVal (net : ann_net) (n : ann_neuron) : ℝ :=
  match n.fire with
  | FireFunc.input => n.value
  | FireFunc.bias => 1
  | FireFunc.sigmoid => ann_sigmoid (synTotal net n.inputs)
  | FireFunc.nullf => 0

/-- One fully-fired layer: every neuron's value replaced by what its
firing function computes from the state `net`. -/
noncomputable def fireLayer (net : ann_net) (L : ann_layer) : ann_layer :=
  { L with neurons := L.neurons.map (fun n => { n with value := fireSpecVal net n }) }

/-- The state after the inner loop finishes one layer: the open layer is
replaced by its fired form, everything else untouched. -/
noncomputable def firedNet (net : ann_net) (done : List ann_layer) (L : ann_layer)
    (pending : List ann_layer) : ann_net :=
  { net with layers := done ++ fireLayer net L :: pending }

/-- The `(layer-id, neuron-ids)` shape of a net, layer by layer. -/
def idShape (net : ann_net) : List (Int × List Int) :=
  net.layers.map (fun l => (l.id, l.neurons.map ann_neuron.id))

/-- The `(layer-id, neuron-ids)` shape a text document declares. -/
def textDocIdShape (d : TextNetDoc) : List (Int × List Int) :=
  d.layers.map (fun tl => (tl.id, tl.neurons.map TextNeuronDoc.id))

/-- The `(layer-id, neuron-ids)` shape a binary document declares. -/
def binDocIdShape (d : BinNetDoc) : List (Int × List Int) :=
  d.layers.map (fun bl => (bl.id, bl.neurons.map BinNeuronDoc.id))

/-- Firing function decoded from the text format's `firing-function`
string by ann_load_neuron. -/
def textFireOf (s : String) : FireFunc :=
  if s = "sigmoid" then FireFunc.sigmoid
  else if s = "bias" then FireFunc.bias
  else FireFunc.input

/-- Effect of the text loader's neuron loop on a layer's fresh neuron
list: each neuron receives the stored id and decoded firing function. -/
def overwriteTextNeurons : List TextNeuronDoc → List ann_neuron → List ann_neuron
  | [], ns => ns
  | _, [] => []
  | t :: ts, n :: ns =>
    { n with id := t.id, fire := textFireOf t.fire } :: overwriteTextNeurons ts ns

/-- Effect of the binary loader's neuron loop on a layer's fresh neuron
list: each neuron receives the stored id and decoded fire code. -/
def overwriteBinNeurons : List BinNeuronDoc → List ann_neuron → List ann_neuron
  | [], ns => ns
  | _, [] => []
  | b :: bs, n :: ns =>
    { n with id := b.id, fire := fireOfCode b.code } :: overwriteBinNeurons bs ns

/-- Effect of the binary loader's second pass on one layer. -/
def binOverwriteLayer (bl : BinLayerDoc) (l : ann_layer) : ann_layer :=
  { l with neurons := overwriteBinNeurons bl.neurons l.neurons }

/-- Neuron list built by `k` consecutive ann_add_neuron calls starting
from neuron counter `c` (most recent at the head). -/
def genNeurons (fire : FireFunc) : Int → Nat → List ann_neuron
  | _, 0 => []
  | c, k + 1 => genNeurons fire (c + 1) k ++ [{ ann_create_neuron fire with id := c }]

/-- Layer-level effect of ann_add_neurons. -/
def addNeuronsLayer (fire : FireFunc) (k : Nat) (l : ann_layer) : ann_layer :=
  { l with neurons := genNeurons fire l.neuron_ctr k ++ l.neurons,
           neuron_ctr := l.neuron_ctr + Int.ofNat k,
           num_neurons := l.num_neurons + k }

/-- The layer ann_load_layer_bin builds for one binary layer header. -/
def binFreshLayer (bl : BinLayerDoc) : ann_layer :=
  { id := bl.id, neuron_ctr := Int.ofNat bl.neurons.length,
    num_neurons := bl.neurons.length,
    neurons := genNeurons FireFunc.nullf 0 bl.neurons.length }

/-- Layer-id health of a net: ids are pairwise distinct and all below the
layer counter (what ann_add_layer's assignment discipline maintains). -/
def LayerIdsOk (net : ann_net) : Prop :=
  (net.layers.map ann_layer.id).Nodup ∧ ∀ l ∈ net.layers, l.id < net.layer_ctr

/-! ### Concrete instances used by the claims -/

/-- A net built via the model API whose second layer mixes firing
functions, with the head of its neuron list an input neuron: input layer
`[input]`, second layer `[input, sigmoid]` (the sigmoid neuron was added
first, the input neuron second, so the input neuron is the list head). -/
def c1net : ann_net :=
  let n0 := ann_create_net
  let a1 := ann_add_layer n0
  let n1 := ann_add_neuron a1.1 a1.2 FireFunc.input
  let a2 := ann_add_layer n1
  let n2 := ann_add_neuron a2.1 a2.2 FireFunc.sigmoid
  ann_add_neuron n2 a2.2 FireFunc.input

/-- A text document in which two serialized neurons share the composite
key `(0, 0)`. -/
def doc2 : JVal :=
  JVal.obj [("ann-name", JVal.str "x"),
    ("layers", JVal.arr [JVal.obj [("layer-id", JVal.num 0 0),
      ("neurons", JVal.arr [
        JVal.obj [("neuron-id", JVal.num 0 0), ("firing-function", JVal.str "input")],
        JVal.obj [("neuron-id", JVal.num 0 0), ("firing-function", JVal.str "input")]])]])]

/-- A binary document with one layer (id 0) holding one input neuron
(id 0) and no synapses; appending a partial synapse record to its
encoding yields a truncated stream. -/
def d3bin : BinNetDoc :=
  { name := none, description := none,
    layers := [{ id := 0, neurons := [{ id := 0, code := 1 }] }], syns := [] }

/-- A text document whose single layer carries layer-id 1 and whose
single neuron carries neuron-id 1 — both equal to the counter value the
loader leaves behind. -/
def doc6 : JVal :=
  JVal.obj [("layers", JVal.arr [JVal.obj [("layer-id", JVal.num 1 0),
    ("neurons", JVal.arr [JVal.obj [("neuron-id", JVal.num 1 0)]])]])]

/-- A two-layer net with a single synapse `(0,0) → (1,0)` present in both
endpoint lists (synapse store index 0). -/
def net8base : ann_net :=
  let n0 := ann_create_net
  let a1 := ann_add_layer n0
  let n1 := ann_add_neuron a1.1 a1.2 FireFunc.input
  let a2 := ann_add_layer n1
  let n2 := ann_add_neuron a2.1 a2.2 FireFunc.sigmoid
  ann_add_synapse n2 (0, 0) (1, 0) 0

/-- net8base with the to-side membership broken: the synapse was removed
from its target neuron's input list only. -/
def net8brokenA : ann_net :=
  modifyNeuron net8base (1, 0) (fun n => { n with inputs := [] })

/-- net8base with the from-side membership broken: the synapse was
removed from its source neuron's output list only. -/
def net8brokenB : ann_net :=
  modifyNeuron net8base (0, 0) (fun n => { n with outputs := [] })

/-- Endpoint state for the rollback counterexample: a fresh neuron. -/
def n5a : neuron5 := { synapse_ctr := 0, inputs := [], outputs := [] }

/-- Witness net for the evaluation claim: one input neuron feeding one
sigmoid neuron through a weight-1 synapse. -/
def c4wnet : ann_net :=
  let n0 := ann_create_net
  let a1 := ann_add_layer n0
  let n1 := ann_add_neuron a1.1 a1.2 FireFunc.input
  let a2 := ann_add_layer n1
  let n2 := ann_add_neuron a2.1 a2.2 FireFunc.sigmoid
  ann_add_synapse n2 (0, 0) (1, 0) 1

/-- Witness net for the single-layer evaluation claim: one layer with one
input neuron. -/
def w10net : ann_net :=
  let n0 := ann_create_net
  let a1 := ann_add_layer n0
  ann_add_neuron a1.1 a1.2 FireFunc.input

/-- The single layer of w10net. -/
def w10layer : ann_layer :=
  { id := 0, neuron_ctr := 1, num_neurons := 1,
    neurons := [{ ann_create_neuron FireFunc.input with id := 0 }] }

/-- A binary document whose single layer carries layer-id 1 — the
counter value the binary loader leaves behind. -/
def d6bin : BinNetDoc :=
  { name := none, description := none,
    layers := [{ id := 1, neurons := [{ id := 1, code := 1 }] }], syns := [] }

/-- Witness text document for id stability. -/
def d9text : TextNetDoc :=
  { name := "w", layers := [{ id := 3, neurons := [{ id := 7, fire := "input", syns := [] }] }] }

/-- Witness binary document for id stability. -/
def d9bin : BinNetDoc :=
  { name := some "w", description := none,
    layers := [{ id := 3, neurons := [{ id := 7, code := 1 }] }], syns := [] }

/-! ## Helper lemmas -/

theorem updList_nil (n : Nat) (f : α → α) : updList ([] : List α) n f = [] := rfl

theorem updList_cons_zero (a : α) (as : List α) (f : α → α) :
    updList (a :: as) 0 f = f a :: as := rfl

theorem updList_cons_succ (a : α) (as : List α) (n : Nat) (f : α → α) :
    updList (a :: as) (n + 1) f = a :: updList as n f := rfl

theorem length_updList (l : List α) (n : Nat) (f : α → α) :
    (updList l n f).length = l.length := by
  induction l generalizing n with
  | nil => rfl
  | cons a as ih => cases n <;> simp [updList, ih]

theorem get?_updList_self (l : List α) (n : Nat) (f : α → α) :
    (updList l n f).get? n = (l.get? n).map f := by
  induction l generalizing n with
  | nil => cases n <;> rfl
  | cons a as ih =>
    cases n with
    | zero => rfl
    | succ n => exact ih n

theorem get?_updList_other (l : List α) (n m : Nat) (f : α → α) (h : n ≠ m) :
    (updList l n f).get? m = l.get? m := by
  induction l generalizing n m with
  | nil => rfl
  | cons a as ih =>
    cases n with
    | zero => cases m with
      | zero => exact absurd rfl h
      | succ m => rfl
    | succ n => cases m with
      | zero => rfl
      | succ m => exact ih n m (fun hh => h (by rw [hh]))

theorem updList_append_cons (as : List α) (b : α) (bs : List α) (f : α → α) :
    updList (as ++ b :: bs) as.length f = as ++ f b :: bs := by
  induction as with
  | nil => rfl
  | cons a as ih => simpa [updList] using ih

theorem get?_append_cons (as : List α) (b : α) (bs : List α) :
    (as ++ b :: bs).get? as.length = some b := by
  induction as with
  | nil => rfl
  | cons a as ih => simpa using ih

theorem get?_append_left (as bs : List α) (n : Nat) (h : n < as.length) :
    (as ++ bs).get? n = as.get? n := by
  induction as generalizing n with
  | nil => simp at h
  | cons a as ih =>
    cases n with
    | zero => rfl
    | succ n => simpa using ih n (by simpa using h)

theorem updList_updList (l : List α) (i : Nat) (f g : α → α) :
    updList (updList l i f) i g = updList l i (fun a => g (f a)) := by
  induction l generalizing i with
  | nil => rfl
  | cons a as ih => cases i <;> simp [updList, ih]

theorem map_updList (l : List α) (i : Nat) (f : α → α) (g : α → β)
    (h : ∀ a, g (f a) = g a) : (updList l i f).map g = l.map g := by
  induction l generalizing i with
  | nil => rfl
  | cons a as ih => cases i <;> simp [updList, ih, h]

theorem copyVals_get? (v : List ℝ) (ns : List ann_neuron) (i : Nat) :
    (copyVals v ns).get? i =
      if i < v.length then (ns.get? i).map (fun n => { n with value := v.getD i 0 })
      else ns.get? i := by
  induction ns generalizing v i with
  | nil => cases v <;> cases i <;> simp [copyVals]
  | cons n ns ih =>
    cases v with
    | nil => simp [copyVals]
    | cons x vs =>
      cases i with
      | zero => simp [copyVals]
      | succ i => simpa [copyVals, Nat.succ_lt_succ_iff] using ih vs i

theorem copyVals_length (v : List ℝ) (ns : List ann_neuron) :
    (copyVals v ns).length = ns.length := by
  induction ns generalizing v with
  | nil => cases v <;> rfl
  | cons n ns ih => cases v <;> simp [copyVals, ih]

/-! ## Claims -/

/-- C1 (code_bug): for the API-built net `c1net`, whose second layer is
`[input, sigmoid]` with an input neuron at the head of the list, the
binary round trip does not preserve evaluation behavior: the save loop
tests the list head's firing function instead of each neuron's own, so
the sigmoid neuron is written with the input code; the reloaded net fires
both second-layer neurons as pass-through, and evaluation of the empty
input vector yields sigmoid(0) at position (1,1) before the round trip
but 0 after it — and sigmoid(0) ≠ 0. -/
theorem C1_binary_roundtrip_code_bug :
    fireTags c1net = [[FireFunc.input], [FireFunc.input, FireFunc.sigmoid]] ∧
    (ann_load_net_bin (ann_save_net_bin c1net)).map fireTags =
      some [[FireFunc.input], [FireFunc.input, FireFunc.input]] ∧
    (ann_process_pattern c1net []).map (fun r => (r.1, getValue r.2 (1, 1))) =
      some (some 1, ann_sigmoid 0) ∧
    (ann_load_net_bin (ann_save_net_bin c1net)).map
        (fun nb => (ann_process_pattern nb []).map (fun r => (r.1, getValue r.2 (1, 1)))) =
      some (some (some 1, 0)) ∧
    ann_sigmoid 0 ≠ 0 := by
  refine ⟨rfl, rfl, rfl, rfl, ?_⟩
  unfold ann_sigmoid
  rw [neg_zero, Real.exp_zero]
  norm_num

/-- C2 (code_bug): the text import of a document whose two serialized
neurons share the composite key `(0, 0)` succeeds — ann_load_layer
discards ann_load_neuron's failure — and the resulting net keeps both
neurons with the duplicate id, contradicting the hard-error claim. -/
theorem C2_duplicate_key_code_bug :
    (ann_load_net doc2).isSome = true ∧
    (ann_load_net doc2).map (fun n => n.layers.map (fun l => l.neurons.map ann_neuron.id)) =
      some [[0, 0]] :=
  ⟨rfl, rfl⟩

/-- C3 (counterexample): a binary stream consisting of a well-formed
one-layer net followed by a truncated synapse record (two of the five
fields) loads successfully — the partial read sets end-of-file, so the
`feof` guard passes — and yields exactly the net of the untruncated
stream, contradicting the hard-error claim. -/
theorem C3_truncated_record_counterexample :
    (ann_load_net_bin (encodeBinNet d3bin ++ [Tok.i 0, Tok.i 0])).isSome = true ∧
    ann_load_net_bin (encodeBinNet d3bin ++ [Tok.i 0, Tok.i 0]) =
      ann_load_net_bin (encodeBinNet d3bin) :=
  ⟨rfl, rfl⟩

/-- Short trailing run: with at most four fields left, fread of a synapse
record fails with end-of-file set, and the loader returns success with
the net unchanged. -/
theorem loadSynsBin_short (hash : Hash) (net : ann_net) (ints : List Int)
    (h : ints.length ≤ 4) :
    ann_load_synapses_bin hash (ints.map Tok.i) net = (true, net) := by
  rcases ints with _ | ⟨a, _ | ⟨b, _ | ⟨c, _ | ⟨d, _ | ⟨e, rest⟩⟩⟩⟩⟩
  · rfl
  · rfl
  · rfl
  · rfl
  · rfl
  · simp at h

/-- C3 (amended): a trailing synapse record truncated to at most four of
its five fields is consumed as a benign end-of-stream: the synapse loader
behaves exactly as if the partial record were absent. -/
theorem C3_amended_truncated_benign (hash : Hash)
    (recs : List (Int × Int × Int × Int × ℝ)) (ints : List Int) (net : ann_net)
    (h : ints.length ≤ 4) :
    ann_load_synapses_bin hash (encodeBinSyns recs ++ ints.map Tok.i) net =
      ann_load_synapses_bin hash (encodeBinSyns recs) net := by
  induction recs generalizing net with
  | nil => exact loadSynsBin_short hash net ints h
  | cons r rest ih =>
    obtain ⟨lf, nf, lt, nt, w⟩ := r
    show ann_load_synapses_bin hash
        (Tok.i lf :: Tok.i nf :: Tok.i lt :: Tok.i nt :: Tok.d w ::
          (encodeBinSyns rest ++ ints.map Tok.i)) net = _
    simp only [ann_load_synapses_bin]
    cases findHash hash (lf, nf) with
    | none => rfl
    | some fp =>
      cases findHash hash (lt, nt) with
      | none => rfl
      | some tp => exact ih _

/-- Witness for the amended truncation claim at a concrete short run. -/
theorem C3_amended_witness :
    ([(0 : Int), 0].length ≤ 4) ∧
    ann_load_synapses_bin [] (encodeBinSyns [] ++ [(0 : Int), 0].map Tok.i) ann_create_net =
      ann_load_synapses_bin [] (encodeBinSyns []) ann_create_net :=
  ⟨by decide, C3_amended_truncated_benign [] [] [(0 : Int), 0] ann_create_net (by decide)⟩

/-- C5 (counterexample): when the synapse allocation succeeds but the
first list-node allocation fails, ann_add_synapse returns failure with
the from-neuron's synapse counter already incremented — per-neuron state
is not fully restored. -/
theorem C5_synapse_ctr_counterexample :
    (ann_add_synapse_alloc true false true n5a n5a 0).1 = none ∧
    (ann_add_synapse_alloc true false true n5a n5a 0).2.1.synapse_ctr =
      n5a.synapse_ctr + 1 ∧
    n5a.synapse_ctr + 1 ≠ n5a.synapse_ctr :=
  ⟨rfl, rfl, by decide⟩

/-- C5 (amended): on any allocation failure ann_add_synapse returns
failure with no partial linkage — the to-neuron is untouched and the
from-neuron's synapse lists are unchanged — but the from-neuron's synapse
counter is rolled back only when the very first allocation failed; when a
list-node allocation failed it stays incremented. -/
theorem C5_amended_rollback (a1 a2 a3 : Bool) (fromN toN : neuron5) (w : ℝ)
    (h : (ann_add_synapse_alloc a1 a2 a3 fromN toN w).1 = none) :
    (ann_add_synapse_alloc a1 a2 a3 fromN toN w).2.2 = toN ∧
    (ann_add_synapse_alloc a1 a2 a3 fromN toN w).2.1.inputs = fromN.inputs ∧
    (ann_add_synapse_alloc a1 a2 a3 fromN toN w).2.1.outputs = fromN.outputs ∧
    (a1 = false → (ann_add_synapse_alloc a1 a2 a3 fromN toN w).2.1 = fromN) ∧
    (a1 = true →
      (ann_add_synapse_alloc a1 a2 a3 fromN toN w).2.1 =
        { fromN with synapse_ctr := fromN.synapse_ctr + 1 }) := by
  cases a1 <;> cases a2 <;> cases a3 <;> simp_all [ann_add_synapse_alloc]

/-- Witness for the amended rollback claim at a concrete failure point
(the second list-node allocation fails). -/
theorem C5_amended_witness :
    (ann_add_synapse_alloc true true false n5a n5a 0).1 = none ∧
    ((ann_add_synapse_alloc true true false n5a n5a 0).2.2 = n5a ∧
     (ann_add_synapse_alloc true true false n5a n5a 0).2.1.inputs = n5a.inputs ∧
     (ann_add_synapse_alloc true true false n5a n5a 0).2.1.outputs = n5a.outputs ∧
     (true = false → (ann_add_synapse_alloc true true false n5a n5a 0).2.1 = n5a) ∧
     (true = true →
       (ann_add_synapse_alloc true true false n5a n5a 0).2.1 =
         { n5a with synapse_ctr := n5a.synapse_ctr + 1 })) :=
  ⟨rfl, C5_amended_rollback true true false n5a n5a 0 rfl⟩

/-- C6 (code_bug): loading a text document whose single layer has
layer-id 1 and whose single neuron has neuron-id 1 leaves both counters
at exactly 1 — not strictly greater than the maximum observed id — so the
next programmatic ann_add_layer assigns the duplicate layer id 1 and the
next ann_add_neuron assigns the duplicate neuron id 1; the binary loader
never advances the layer counter at all, with the same collision. -/
theorem C6_counter_not_advanced_code_bug :
    (∃ n6, ann_load_net doc6 = some n6 ∧
      n6.layers.map ann_layer.id = [1] ∧ n6.layer_ctr = 1 ∧
      (ann_add_layer n6).1.layers.map ann_layer.id = [1, 1] ∧
      n6.layers.map (fun l => l.neurons.map ann_neuron.id) = [[1]] ∧
      n6.layers.map ann_layer.neuron_ctr = [1] ∧
      (ann_add_neuron n6 0 FireFunc.input).layers.map
        (fun l => l.neurons.map ann_neuron.id) = [[1, 1]]) ∧
    (ann_load_net_bin (encodeBinNet d6bin)).map
        (fun n => ((ann_add_layer n).1.layers.map ann_layer.id, n.layer_ctr)) =
      some ([1, 1], 1) :=
  ⟨⟨_, rfl, rfl, rfl, rfl, rfl, rfl, rfl⟩, rfl⟩

/-- C7 (counterexample): appending one layer (id 0) and then prepending a
layer leaves two layers that both carry id 0 — ann_prepend_layer (like
ann_insert_after_layer) keeps ann_create_layer's id 0 and never consults
the counter — so layer ids are not unique under the three layer-creating
operations. -/
theorem C7_duplicate_id_counterexample :
    (ann_prepend_layer (ann_add_layer ann_create_net).1).layers.map ann_layer.id = [0, 0] ∧
    ¬ ((ann_prepend_layer (ann_add_layer ann_create_net).1).layers.map ann_layer.id).Nodup ∧
    (ann_insert_after_layer (ann_add_layer ann_create_net).1 0).layers.map ann_layer.id
      = [0, 0] :=
  ⟨rfl, by decide, rfl⟩

/-- C7 (amended): the append operation alone does keep layer ids unique:
a fresh net has distinct layer ids all below the counter, and
ann_add_layer preserves that invariant (the new layer takes the counter
value, which exceeds every existing id). -/
theorem C7_amended_append_unique :
    LayerIdsOk ann_create_net ∧
    ∀ net : ann_net, LayerIdsOk net → LayerIdsOk (ann_add_layer net).1 := by
  constructor
  · exact ⟨List.nodup_nil, fun l hl => absurd hl (List.not_mem_nil l)⟩
  · intro net h
    obtain ⟨hnd, hlt⟩ := h
    constructor
    · simp only [ann_add_layer, List.map_append, List.map_cons, List.map_nil]
      rw [List.nodup_append]
      refine ⟨hnd, List.nodup_singleton _, ?_⟩
      intro x hx hmem
      rw [List.mem_singleton] at hmem
      subst hmem
      obtain ⟨l, hl, hid⟩ := List.mem_map.mp hx
      exact absurd (hid ▸ hlt l hl) (lt_irrefl _)
    · intro l hl
      simp only [ann_add_layer, List.mem_append, List.mem_singleton] at hl
      rcases hl with hl | rfl
      · exact lt_trans (hlt l hl) (lt_add_one _)
      · exact lt_add_one net.layer_ctr

/-- Witness for the amended uniqueness claim: one append on the fresh
net. -/
theorem C7_amended_witness :
    LayerIdsOk ann_create_net ∧ LayerIdsOk (ann_add_layer ann_create_net).1 :=
  ⟨⟨List.nodup_nil, fun l hl => absurd hl (List.not_mem_nil l)⟩,
   C7_amended_append_unique.2 ann_create_net
     ⟨List.nodup_nil, fun l hl => absurd hl (List.not_mem_nil l)⟩⟩

/-- C8 (code_bug): on the two-layer net with one synapse, ann_check_net
accepts the intact net; with the to-side membership broken (synapse
absent from the target's input list) the checker's scan falls off the end
of the list and dereferences NULL — undefined behavior, not a false
return with a diagnostic; with the from-side membership broken the
traversal (which only walks output lists) never reaches the synapse and
the check wrongly returns true. -/
theorem C8_check_net_code_bug :
    ann_check_net net8base = some true ∧
    (getNeuron net8brokenA (1, 0)).map ann_neuron.inputs = some [] ∧
    (getNeuron net8brokenA (0, 0)).map ann_neuron.outputs = some [0] ∧
    ann_check_net net8brokenA = none ∧
    (getNeuron net8brokenB (0, 0)).map ann_neuron.outputs = some [] ∧
    (getNeuron net8brokenB (1, 0)).map ann_neuron.inputs = some [0] ∧
    ann_check_net net8brokenB = some true :=
  ⟨rfl, rfl, rfl, rfl, rfl, rfl, rfl⟩

/-- C10: on a net with exactly one layer, ann_process_pattern copies the
input vector positionally into that layer (a neuron beyond the vector
keeps its prior value), the loop over subsequent layers processes
nothing — no firing function is invoked, the net is otherwise
unchanged — and the returned "last layer processed" is NULL. -/
theorem C10_single_layer (net : ann_net) (l : ann_layer) (v : List ℝ)
    (h : net.layers = [l]) :
    ann_process_pattern net v = some (none, setInputs net v) ∧
    (setInputs net v).layers = [{ l with neurons := copyVals v l.neurons }] ∧
    ∀ i, (copyVals v l.neurons).get? i =
      (if i < v.length then (l.neurons.get? i).map (fun n => { n with value := v.getD i 0 })
       else l.neurons.get? i) := by
  refine ⟨?_, ?_, fun i => copyVals_get? v l.neurons i⟩
  · simp only [ann_process_pattern, h]
    rfl
  · simp only [setInputs, modifyLayer, h]
    rfl

/-- Witness for the single-layer claim on a concrete one-layer net. -/
theorem C10_single_layer_witness :
    w10net.layers = [w10layer] ∧
    (ann_process_pattern w10net [0] = some (none, setInputs w10net [0]) ∧
     (setInputs w10net [0]).layers = [{ w10layer with neurons := copyVals [0] w10layer.neurons }] ∧
     ∀ i, (copyVals [0] w10layer.neurons).get? i =
       (if i < [(0 : ℝ)].length then
          (w10layer.neurons.get? i).map (fun n => { n with value := [(0 : ℝ)].getD i 0 })
        else w10layer.neurons.get? i)) :=
  ⟨rfl, C10_single_layer w10net w10layer [0] rfl⟩

/-! ## Id stability (C9): characterization of the loaders on encoded
documents -/

theorem updList_id (l : List α) (i : Nat) (f : α → α) (h : ∀ a, f a = a) :
    updList l i f = l := by
  induction l generalizing i with
  | nil => rfl
  | cons a as ih => cases i <;> simp [updList, h, ih]

theorem updList_congr (l : List α) (i : Nat) (f g : α → α) (h : ∀ a, f a = g a) :
    updList l i f = updList l i g := by
  have hfg : f = g := funext h
  rw [hfg]

theorem modifyLayer_modifyLayer (net : ann_net) (li : Nat) (f g : ann_layer → ann_layer) :
    modifyLayer (modifyLayer net li f) li g = modifyLayer net li (fun l => g (f l)) := by
  simp [modifyLayer, updList_updList]

theorem genNeurons_length (fire : FireFunc) (c : Int) (k : Nat) :
    (genNeurons fire c k).length = k := by
  induction k generalizing c with
  | zero => rfl
  | succ k ih => simp [genNeurons, ih]

/-- ann_add_neurons as a single layer update. -/
theorem ann_add_neurons_eq (net : ann_net) (li : Nat) (k : Nat) (fire : FireFunc) :
    ann_add_neurons net li k fire = modifyLayer net li (addNeuronsLayer fire k) := by
  induction k generalizing net with
  | zero =>
    show net = modifyLayer net li (addNeuronsLayer fire 0)
    have h : ∀ l : ann_layer, addNeuronsLayer fire 0 l = l := by
      intro l
      simp [addNeuronsLayer, genNeurons]
    rw [modifyLayer, updList_id _ _ _ h]
  | succ k ih =>
    show ann_add_neurons (ann_add_neuron net li fire) li k fire = _
    rw [ih, ann_add_neuron, modifyLayer_modifyLayer]
    refine congrArg (modifyLayer net li) (funext fun l => ?_)
    have harr : genNeurons fire (l.neuron_ctr + 1) k ++
        ({ ann_create_neuron fire with id := l.neuron_ctr } :: l.neurons) =
        genNeurons fire l.neuron_ctr (k + 1) ++ l.neurons := by
      rw [genNeurons, List.append_assoc]
      rfl
    simp only [addNeuronsLayer]
    refine ann_layer.ext rfl ?_ ?_ ?_
    · show l.neuron_ctr + 1 + Int.ofNat k = l.neuron_ctr + Int.ofNat (k + 1)
      push_cast [Int.ofNat_eq_natCast]
      ring
    · show l.num_neurons + 1 + k = l.num_neurons + (k + 1)
      omega
    · exact harr

theorem overwriteTextNeurons_map_id (tns : List TextNeuronDoc) (ns : List ann_neuron)
    (h : ns.length = tns.length) :
    (overwriteTextNeurons tns ns).map ann_neuron.id = tns.map TextNeuronDoc.id := by
  induction tns generalizing ns with
  | nil =>
    cases ns with
    | nil => rfl
    | cons n ns => simp at h
  | cons t ts ih =>
    cases ns with
    | nil => simp at h
    | cons n ns =>
      simp only [overwriteTextNeurons, List.map_cons]
      rw [ih ns (by simpa using h)]

theorem overwriteBinNeurons_map_id (bns : List BinNeuronDoc) (ns : List ann_neuron)
    (h : ns.length = bns.length) :
    (overwriteBinNeurons bns ns).map ann_neuron.id = bns.map BinNeuronDoc.id := by
  induction bns generalizing ns with
  | nil =>
    cases ns with
    | nil => rfl
    | cons n ns => simp at h
  | cons b bs ih =>
    cases ns with
    | nil => simp at h
    | cons n ns =>
      simp only [overwriteBinNeurons, List.map_cons]
      rw [ih ns (by simpa using h)]

/-- ann_load_neuron on an encoded neuron object: the id and decoded
firing function are always written; the result flag and hash depend on
the duplicate check. -/
theorem ann_load_neuron_enc (t : TextNeuronDoc) (n : ann_neuron) (lid : Int) (p : Pos)
    (hash : Hash) :
    ann_load_neuron (encodeTextNeuron t) n lid p hash =
      (match ann_insert_neuron_hash (lid, t.id) p hash with
       | none => (false, { n with id := t.id, fire := textFireOf t.fire }, hash)
       | some h => (true, { n with id := t.id, fire := textFireOf t.fire }, h)) := by
  by_cases h1 : t.fire = "sigmoid" <;> by_cases h2 : t.fire = "bias" <;>
    simp [ann_load_neuron, encodeTextNeuron, textFireOf, getItem, jLookup, jvalInt,
      jvalStr0, h1, h2]

/-- The neuron written by ann_load_neuron on an encoded neuron object,
whether or not the index insertion succeeded. -/
theorem ann_load_neuron_enc_neuron (t : TextNeuronDoc) (n : ann_neuron) (lid : Int)
    (p : Pos) (hash : Hash) :
    (ann_load_neuron (encodeTextNeuron t) n lid p hash).2.1 =
      { n with id := t.id, fire := textFireOf t.fire } := by
  rw [ann_load_neuron_enc]
  cases ann_insert_neuron_hash (lid, t.id) p hash <;> rfl

/-- The text loader's neuron loop walks the fresh suffix of the layer's
list and overwrites each neuron with its stored id and firing tag
(whatever the per-neuron index insertions did to the hash). -/
theorem loadNeuronsText_enc (tns : List TextNeuronDoc) :
    ∀ (lid : Int) (suf pre : List ann_neuron) (done pending : List ann_layer)
      (L : ann_layer) (net : ann_net) (hash : Hash),
    net.layers = done ++ L :: pending → L.neurons = pre ++ suf →
    suf.length = tns.length →
    ∃ hash', loadNeuronsText done.length lid (tns.map encodeTextNeuron) pre.length net hash =
      ({ net with layers := done ++
          { L with neurons := pre ++ overwriteTextNeurons tns suf } :: pending }, hash') := by
  induction tns with
  | nil =>
    intro lid suf pre done pending L net hash hlay hneu hlen
    cases suf with
    | cons a b => simp at hlen
    | nil =>
      refine ⟨hash, ?_⟩
      show (net, hash) = _
      have h1 : pre ++ overwriteTextNeurons [] ([] : List ann_neuron) = L.neurons := by
        rw [hneu]
        rfl
      have hL : ({ L with neurons := pre ++ overwriteTextNeurons [] [] } : ann_layer) = L := by
        rw [h1]
      rw [hL, ← hlay]
  | cons t ts ih =>
    intro lid suf pre done pending L net hash hlay hneu hlen
    cases suf with
    | nil => simp at hlen
    | cons n suf' =>
      have hgetL : net.layers.get? done.length = some L := by
        rw [hlay]
        exact get?_append_cons done L pending
      have hget : getNeuron net (done.length, pre.length) = some n := by
        simp only [getNeuron, hgetL]
        rw [hneu]
        exact get?_append_cons pre n suf'
      have hnet' : modifyNeuron net (done.length, pre.length)
          (fun _ => { n with id := t.id, fire := textFireOf t.fire }) =
          { net with layers := done ++
            { L with neurons :=
              pre ++ { n with id := t.id, fire := textFireOf t.fire } :: suf' } :: pending } := by
        simp only [modifyNeuron]
        rw [hlay, updList_append_cons]
        rw [hneu, updList_append_cons]
      obtain ⟨hash', hrec⟩ := ih lid suf'
        (pre ++ [{ n with id := t.id, fire := textFireOf t.fire }]) done pending
        { L with neurons := pre ++ { n with id := t.id, fire := textFireOf t.fire } :: suf' }
        ({ net with layers := done ++
            { L with neurons :=
              pre ++ { n with id := t.id, fire := textFireOf t.fire } :: suf' } :: pending })
        (ann_load_neuron (encodeTextNeuron t) n lid (done.length, pre.length) hash).2.2
        rfl (by simp) (by simpa using hlen)
      refine ⟨hash', ?_⟩
      show loadNeuronsText done.length lid
          (encodeTextNeuron t :: ts.map encodeTextNeuron) pre.length net hash = _
      simp only [loadNeuronsText, hget]
      rw [ann_load_neuron_enc_neuron, hnet']
      have hlen2 : (pre ++ [{ n with id := t.id, fire := textFireOf t.fire }]).length
          = pre.length + 1 := by simp
      rw [← hlen2, hrec]
      simp only [overwriteTextNeurons, List.append_assoc, List.cons_append, List.nil_append]

/-- ann_load_layer on an encoded layer object: a layer with the stored id
and the stored neuron ids is appended (the advanced counter value is
existential here; the id-advancement claim is settled separately). -/
theorem ann_load_layer_enc (tl : TextLayerDoc) (net : ann_net) (hash : Hash) :
    ∃ hash' c L, ann_load_layer (encodeTextLayer tl) (tl.neurons.map encodeTextNeuron) net hash
        = some ({ net with
                  layers := net.layers ++ [L],
                  layer_ctr := c,
                  num_layers := net.num_layers + 1 }, hash') ∧
      L.id = tl.id ∧ L.neurons.map ann_neuron.id = tl.neurons.map TextNeuronDoc.id := by
  have hgi : getItem (encodeTextLayer tl) "layer-id" = some (JVal.num tl.id 0) := rfl
  have hupd : updList (net.layers ++ [{ ann_create_layer with id := net.layer_ctr }])
      net.layers.length (fun l => { l with id := tl.id }) =
      net.layers ++ [{ ann_create_layer with id := tl.id }] :=
    updList_append_cons net.layers _ [] _
  cases htl : tl.neurons with
  | nil =>
    refine ⟨hash,
      (if tl.id > net.layer_ctr + 1 then tl.id + 1 else net.layer_ctr + 1),
      { ann_create_layer with id := tl.id }, ?_, rfl,
      by simp [htl, ann_create_layer]⟩
    simp only [ann_load_layer, ann_add_layer, hgi, jvalInt, modifyLayer, hupd, htl,
      List.map_nil, List.length_nil]
    rw [if_pos trivial]
  | cons t0 trest =>
    have hcount : (tl.neurons.map encodeTextNeuron).length = tl.neurons.length := by simp
    have hL4 : ann_add_neurons
        ({ net with
           layers := net.layers ++ [{ ann_create_layer with id := tl.id }],
           layer_ctr := if tl.id > net.layer_ctr + 1 then tl.id + 1 else net.layer_ctr + 1,
           num_layers := net.num_layers + 1 }) net.layers.length tl.neurons.length
           FireFunc.input =
        { net with
          layers := net.layers ++
            [addNeuronsLayer FireFunc.input tl.neurons.length
              { ann_create_layer with id := tl.id }],
          layer_ctr := if tl.id > net.layer_ctr + 1 then tl.id + 1 else net.layer_ctr + 1,
          num_layers := net.num_layers + 1 } := by
      rw [ann_add_neurons_eq]
      simp only [modifyLayer]
      rw [updList_append_cons net.layers _ []]
    obtain ⟨hash', hloop⟩ := loadNeuronsText_enc tl.neurons tl.id
      (genNeurons FireFunc.input 0 tl.neurons.length) [] net.layers []
      (addNeuronsLayer FireFunc.input tl.neurons.length { ann_create_layer with id := tl.id })
      ({ net with
        layers := net.layers ++
          [addNeuronsLayer FireFunc.input tl.neurons.length
            { ann_create_layer with id := tl.id }],
        layer_ctr := if tl.id > net.layer_ctr + 1 then tl.id + 1 else net.layer_ctr + 1,
        num_layers := net.num_layers + 1 }) hash
      rfl (by simp [addNeuronsLayer, ann_create_layer]) (by simp [genNeurons_length])
    simp only [List.length_nil] at hloop
    refine ⟨hash',
      (if tl.id > net.layer_ctr + 1 then tl.id + 1 else net.layer_ctr + 1),
      { (addNeuronsLayer FireFunc.input tl.neurons.length
          { ann_create_layer with id := tl.id }) with
        neurons := [] ++ overwriteTextNeurons tl.neurons
          (genNeurons FireFunc.input 0 tl.neurons.length) }, ?_, rfl, ?_⟩
    · simp only [ann_load_layer, ann_add_layer, hgi, jvalInt, modifyLayer, hupd]
      rw [← htl, hcount]
      have hne : ¬ (tl.neurons.length = 0) := by rw [htl]; simp
      rw [if_neg hne, hL4, hloop]
    · rw [← htl]
      show ([] ++ overwriteTextNeurons tl.neurons
          (genNeurons FireFunc.input 0 tl.neurons.length)).map ann_neuron.id =
        tl.neurons.map TextNeuronDoc.id
      rw [List.nil_append]
      exact overwriteTextNeurons_map_id tl.neurons _ (by simp [genNeurons_length])

/-- Pass 1 on an encoded document always succeeds and appends one layer
per serialized layer, carrying exactly the stored ids. -/
theorem textPass1_enc (tls : List TextLayerDoc) :
    ∀ (net : ann_net) (hash : Hash),
    ∃ net' hash', textPass1 (tls.map encodeTextLayer) net hash = some (net', hash') ∧
      idShape net' = idShape net ++
        tls.map (fun tl => (tl.id, tl.neurons.map TextNeuronDoc.id)) := by
  induction tls with
  | nil =>
    intro net hash
    exact ⟨net, hash, rfl, by simp⟩
  | cons tl tls ih =>
    intro net hash
    obtain ⟨hash1, c, L, heq, hid, hids⟩ := ann_load_layer_enc tl net hash
    obtain ⟨net', hash', heq2, hshape⟩ := ih
      ({ net with
         layers := net.layers ++ [L],
         layer_ctr := c,
         num_layers := net.num_layers + 1 }) hash1
    refine ⟨net', hash', ?_, ?_⟩
    · show (match ann_load_layer (encodeTextLayer tl)
          (jArr0 (getItem (encodeTextLayer tl) "neurons")) net hash with
        | none => none
        | some r => textPass1 (tls.map encodeTextLayer) r.1 r.2) = some (net', hash')
      rw [show jArr0 (getItem (encodeTextLayer tl) "neurons")
          = tl.neurons.map encodeTextNeuron from rfl, heq]
      exact heq2
    · rw [hshape]
      have hmid : idShape ({ net with
          layers := net.layers ++ [L],
          layer_ctr := c,
          num_layers := net.num_layers + 1 }) =
          idShape net ++ [(L.id, L.neurons.map ann_neuron.id)] := by
        simp [idShape]
      rw [hmid, hid, hids]
      simp

/-- idShape ignores a neuron rewrite that keeps the id. -/
theorem idShape_modifyNeuron (net : ann_net) (p : Pos) (f : ann_neuron → ann_neuron)
    (h : ∀ n, (f n).id = n.id) : idShape (modifyNeuron net p f) = idShape net := by
  simp only [idShape, modifyNeuron]
  refine map_updList _ _ _ _ (fun l => ?_)
  exact congrArg (Prod.mk l.id) (map_updList _ _ _ _ h)

/-- idShape ignores the synapse store. -/
theorem idShape_set_synapses (net : ann_net) (s : List ann_synapse) :
    idShape { net with synapses := s } = idShape net := rfl

/-- Connecting two neurons never renumbers anything. -/
theorem idShape_ann_add_synapse (net : ann_net) (p q : Pos) (w : ℝ) :
    idShape (ann_add_synapse net p q w) = idShape net := by
  unfold ann_add_synapse
  cases getNeuron net p with
  | none => rfl
  | some fn =>
    rw [idShape_set_synapses]
    exact (idShape_modifyNeuron
        (modifyNeuron net p (fun n => { n with
          synapse_ctr := n.synapse_ctr + 1,
          outputs := net.synapses.length :: n.outputs }))
        q (fun n => { n with inputs := net.synapses.length :: n.inputs })
        (fun _ => rfl)).trans
      (idShape_modifyNeuron net p
        (fun n => { n with
          synapse_ctr := n.synapse_ctr + 1,
          outputs := net.synapses.length :: n.outputs }) (fun _ => rfl))

theorem ann_load_synapse_entry_idShape (js : JVal) (toPos : Pos) (net : ann_net)
    (hash : Hash) (net' : ann_net)
    (h : ann_load_synapse_entry js toPos net hash = some net') :
    idShape net' = idShape net := by
  unfold ann_load_synapse_entry at h
  cases hg1 : getItem js "layer-from" with
  | none => simp only [hg1] at h; cases h
  | some jlf =>
    cases hg2 : getItem js "neuron-from" with
    | none => simp only [hg1, hg2] at h; cases h
    | some jnf =>
      cases hg3 : getItem js "weight" with
      | none => simp only [hg1, hg2, hg3] at h; cases h
      | some jw =>
        simp only [hg1, hg2, hg3] at h
        cases hf : findHash hash (jvalInt jlf, jvalInt jnf) with
        | none => rw [hf] at h; cases h
        | some fromPos =>
          rw [hf] at h
          injection h with h
          rw [← h]
          exact idShape_ann_add_synapse net fromPos toPos (jvalFloat jw)

theorem synEntriesLoop_idShape (js : List JVal) :
    ∀ (toPos : Pos) (net : ann_net) (hash : Hash) (net' : ann_net),
    synEntriesLoop js toPos net hash = some net' → idShape net' = idShape net := by
  induction js with
  | nil =>
    intro toPos net hash net' h
    injection h with h
    rw [← h]
  | cons je rest ih =>
    intro toPos net hash net' h
    simp only [synEntriesLoop] at h
    cases he : ann_load_synapse_entry je toPos net hash with
    | none => simp only [he] at h; cases h
    | some net2 =>
      simp only [he] at h
      rw [ih toPos net2 hash net' h]
      exact ann_load_synapse_entry_idShape je toPos net hash net2 he

theorem synNeuronsLoop_idShape (jns : List JVal) :
    ∀ (lid : Int) (hash : Hash) (net : ann_net) (net' : ann_net),
    synNeuronsLoop lid hash jns net = some net' → idShape net' = idShape net := by
  induction jns with
  | nil =>
    intro lid hash net net' h
    injection h with h
    rw [← h]
  | cons jn rest ih =>
    intro lid hash net net' h
    simp only [synNeuronsLoop] at h
    cases hg : getItem jn "neuron-id" with
    | none => simp only [hg] at h; cases h
    | some jnid =>
      simp only [hg] at h
      cases hf : findHash hash (lid, jvalInt jnid) with
      | none => simp only [hf] at h; cases h
      | some toPos =>
        simp only [hf] at h
        cases hs : getItem jn "synapses" with
        | none =>
          simp only [hs] at h
          exact ih lid hash net net' h
        | some jsyns =>
          simp only [hs] at h
          cases he : synEntriesLoop (jArr jsyns) toPos net hash with
          | none => simp only [he] at h; cases h
          | some net2 =>
            simp only [he] at h
            rw [ih lid hash net2 net' h]
            exact synEntriesLoop_idShape (jArr jsyns) toPos net hash net2 he

theorem synLayersLoop_idShape (jls : List JVal) :
    ∀ (hash : Hash) (net : ann_net) (net' : ann_net),
    synLayersLoop hash jls net = some net' → idShape net' = idShape net := by
  induction jls with
  | nil =>
    intro hash net net' h
    injection h with h
    rw [← h]
  | cons jl rest ih =>
    intro hash net net' h
    simp only [synLayersLoop] at h
    cases hg : getItem jl "layer-id" with
    | none => simp only [hg] at h; cases h
    | some jlid =>
      simp only [hg] at h
      cases hn : synNeuronsLoop (jvalInt jlid) hash (jArr0 (getItem jl "neurons")) net with
      | none => simp only [hn] at h; cases h
      | some net2 =>
        simp only [hn] at h
        rw [ih hash net2 net' h]
        exact synNeuronsLoop_idShape _ _ hash net net2 hn

/-- ann_load_net on an encoded document, with the name set and the two
passes exposed. -/
theorem ann_load_net_enc (d : TextNetDoc) :
    ann_load_net (encodeTextNet d) =
      (match textPass1 (d.layers.map encodeTextLayer)
          { ann_create_net with name := some d.name } [] with
       | none => none
       | some r =>
         match synLayersLoop r.2 (d.layers.map encodeTextLayer) r.1 with
         | none => none
         | some net4 => some net4) := rfl

/-- Text half of id stability. -/
theorem text_id_stability (d : TextNetDoc) (net : ann_net)
    (h : ann_load_net (encodeTextNet d) = some net) : idShape net = textDocIdShape d := by
  rw [ann_load_net_enc] at h
  obtain ⟨net3, hash3, hp1, hshape⟩ :=
    textPass1_enc d.layers { ann_create_net with name := some d.name } []
  simp only [hp1] at h
  cases hs : synLayersLoop hash3 (d.layers.map encodeTextLayer) net3 with
  | none => rw [hs] at h; cases h
  | some net4 =>
    rw [hs] at h
    injection h with h
    rw [← h, synLayersLoop_idShape _ _ _ _ hs, hshape]
    simp [idShape, textDocIdShape, ann_create_net]

/-- Reading back a length-prefixed character run. -/
theorem readLenStr_lenStrToks (os : Option String) (rest : List Tok) :
    readLenStr (lenStrToks os ++ rest) =
      some ((match os with
             | none => none
             | some s => if s.length = 0 then none else some s), rest) := by
  cases os with
  | none => rfl
  | some s =>
    by_cases hl : s.length = 0
    · simp [lenStrToks, readLenStr, readInt, hl]
    · simp only [lenStrToks, Option.getD]
      rw [if_neg hl]
      simp only [List.cons_append, readLenStr, readInt]
      rw [if_neg (by simpa using hl)]
      simp [readStr, hl]

/-- The header loop of the binary loader appends one fresh layer per
header, keeping the stored ids (and fails on a zero neuron count). -/
theorem binLayersLoopA_enc (bls : List BinLayerDoc) :
    ∀ (net : ann_net) (rest : List Tok) (r : ann_net × List Tok),
    binLayersLoopA bls.length net (encodeBinHeaders bls ++ rest) = some r →
    r.2 = rest ∧ r.1 = { net with
      layers := net.layers ++ bls.map binFreshLayer,
      layer_ctr := net.layer_ctr + Int.ofNat bls.length,
      num_layers := net.num_layers + bls.length } := by
  induction bls with
  | nil =>
    intro net rest r h
    injection h with h
    subst h
    refine ⟨rfl, ?_⟩
    refine ann_net.ext rfl rfl ?_ ?_ ?_ rfl <;> simp
  | cons bl bls ih =>
    intro net rest r h
    have hfresh : addNeuronsLayer FireFunc.nullf bl.neurons.length
        { ann_create_layer with id := bl.id } = binFreshLayer bl := by
      refine ann_layer.ext rfl ?_ ?_ ?_ <;>
        simp [addNeuronsLayer, binFreshLayer, ann_create_layer]
    by_cases hc : bl.neurons.length = 0
    · exfalso
      simp only [List.length_cons, encodeBinHeaders, List.cons_append, binLayersLoopA,
        ann_load_layer_bin, readInt] at h
      rw [if_pos (by simp [hc])] at h
      cases h
    · have hlb : ann_load_layer_bin net (Tok.i bl.id :: Tok.i (Int.ofNat bl.neurons.length) ::
          (encodeBinHeaders bls ++ rest)) =
          some ({ net with
            layers := net.layers ++ [binFreshLayer bl],
            layer_ctr := net.layer_ctr + 1,
            num_layers := net.num_layers + 1 }, encodeBinHeaders bls ++ rest) := by
        simp only [ann_load_layer_bin, readInt, ann_add_layer, modifyLayer]
        rw [show (Int.ofNat bl.neurons.length).toNat = bl.neurons.length from rfl]
        rw [updList_append_cons, ann_add_neurons_eq]
        simp only [modifyLayer]
        rw [updList_append_cons]
        rw [if_neg hc]
        exact congrArg (fun L => some (({ net with
          layers := net.layers ++ [L],
          layer_ctr := net.layer_ctr + 1,
          num_layers := net.num_layers + 1 } : ann_net), encodeBinHeaders bls ++ rest)) hfresh
      simp only [List.length_cons, encodeBinHeaders, List.cons_append, binLayersLoopA] at h
      rw [hlb] at h
      obtain ⟨h2, h1⟩ := ih _ _ r h
      refine ⟨h2, ?_⟩
      rw [h1]
      refine ann_net.ext rfl rfl ?_ ?_ ?_ rfl
      · show net.layer_ctr + 1 + Int.ofNat bls.length = net.layer_ctr + Int.ofNat (bl :: bls).length
        simp only [List.length_cons]
        push_cast [Int.ofNat_eq_natCast]
        ring
      · show net.num_layers + 1 + bls.length = net.num_layers + (bl :: bls).length
        simp only [List.length_cons]
        omega
      · show (net.layers ++ [binFreshLayer bl]) ++ bls.map binFreshLayer
          = net.layers ++ (bl :: bls).map binFreshLayer
        simp

/-- The neuron loop of the binary loader's second pass overwrites the
fresh suffix of one layer's list with the stored ids and fire codes. -/
theorem binNeuronsLoopB_enc (bns : List BinNeuronDoc) :
    ∀ (suf pre : List ann_neuron) (done pending : List ann_layer) (L : ann_layer)
      (net : ann_net) (hash : Hash) (rest : List Tok) (r : ann_net × Hash × List Tok),
    net.layers = done ++ L :: pending → L.neurons = pre ++ suf →
    suf.length = bns.length →
    binNeuronsLoopB done.length bns.length pre.length net hash (encodeBinNeurons bns ++ rest)
      = some r →
    r.2.2 = rest ∧ r.1 = { net with layers := done ++
      { L with neurons := pre ++ overwriteBinNeurons bns suf } :: pending } := by
  induction bns with
  | nil =>
    intro suf pre done pending L net hash rest r hlay hneu hlen h
    cases suf with
    | cons a b => simp at hlen
    | nil =>
      injection h with h
      subst h
      refine ⟨rfl, ?_⟩
      show net = _
      have h1 : pre ++ overwriteBinNeurons [] ([] : List ann_neuron) = L.neurons := by
        rw [hneu]
        rfl
      have hL : ({ L with neurons := pre ++ overwriteBinNeurons [] [] } : ann_layer) = L := by
        rw [h1]
      rw [hL, ← hlay]
  | cons b bs ih =>
    intro suf pre done pending L net hash rest r hlay hneu hlen h
    cases suf with
    | nil => simp at hlen
    | cons n suf' =>
      have hnet' : modifyNeuron net (done.length, pre.length)
          (fun nn => { nn with id := b.id, fire := fireOfCode b.code }) =
          { net with layers := done ++
            { L with neurons :=
              pre ++ { n with id := b.id, fire := fireOfCode b.code } :: suf' } :: pending } := by
        simp only [modifyNeuron]
        rw [hlay, updList_append_cons]
        rw [hneu, updList_append_cons]
      simp only [List.length_cons, encodeBinNeurons, List.cons_append, binNeuronsLoopB,
        readInt] at h
      rw [hnet'] at h
      cases hins : ann_insert_neuron_hash
          (layerIdAt ({ net with layers := done ++
            { L with neurons :=
              pre ++ { n with id := b.id, fire := fireOfCode b.code } :: suf' } :: pending })
            done.length, b.id) (done.length, pre.length) hash with
      | none => rw [hins] at h; cases h
      | some hash2 =>
        rw [hins] at h
        have hlen2 : (pre ++ [{ n with id := b.id, fire := fireOfCode b.code }]).length
            = pre.length + 1 := by simp
        rw [← hlen2] at h
        obtain ⟨h2, h1⟩ := ih suf'
          (pre ++ [{ n with id := b.id, fire := fireOfCode b.code }]) done pending
          { L with neurons := pre ++ { n with id := b.id, fire := fireOfCode b.code } :: suf' }
          _ hash2 rest r rfl (by simp) (by simpa using hlen) h
        refine ⟨h2, ?_⟩
        rw [h1]
        refine ann_net.ext rfl rfl rfl rfl ?_ rfl
        simp only [overwriteBinNeurons, List.append_assoc, List.cons_append, List.nil_append]

/-- The layer loop of the binary loader's second pass. -/
theorem binLayersLoopB_enc (bls : List BinLayerDoc) :
    ∀ (pending done : List ann_layer) (net : ann_net) (hash : Hash) (rest : List Tok)
      (r : ann_net × Hash × List Tok),
    net.layers = done ++ pending →
    pending.map (fun l => l.neurons.length) = bls.map (fun bl => bl.neurons.length) →
    binLayersLoopB pending done.length net hash (encodeBinNeuronSecs bls ++ rest) = some r →
    r.2.2 = rest ∧ r.1 = { net with layers := done ++ List.zipWith binOverwriteLayer bls pending } := by
  induction bls with
  | nil =>
    intro pending done net hash rest r hlay hcounts h
    have hpend : pending = [] := by simpa using hcounts
    subst hpend
    injection h with h
    subst h
    refine ⟨rfl, ?_⟩
    show net = _
    rw [List.zipWith_nil_left, ← hlay]
  | cons bl bls ih =>
    intro pending done net hash rest r hlay hcounts h
    cases pending with
    | nil => simp at hcounts
    | cons L pending' =>
      simp only [List.map_cons, List.cons.injEq] at hcounts
      obtain ⟨hcount1, hcount2⟩ := hcounts
      simp only [encodeBinNeuronSecs, List.append_assoc, binLayersLoopB] at h
      cases hB : binNeuronsLoopB done.length L.neurons.length 0 net hash
          (encodeBinNeurons bl.neurons ++ (encodeBinNeuronSecs bls ++ rest)) with
      | none =>
        simp only [hB] at h
        cases h
      | some rr =>
        simp only [hB] at h
        have hBl : binNeuronsLoopB done.length bl.neurons.length
            ([] : List ann_neuron).length net hash
            (encodeBinNeurons bl.neurons ++ (encodeBinNeuronSecs bls ++ rest)) = some rr := by
          rw [← hcount1]
          exact hB
        obtain ⟨hr2, hr1⟩ := binNeuronsLoopB_enc bl.neurons L.neurons [] done pending' L
          net hash (encodeBinNeuronSecs bls ++ rest) rr hlay rfl hcount1 hBl
        rw [hr2, hr1] at h
        have hlen3 : done.length + 1 = (done ++ [binOverwriteLayer bl L]).length := by simp
        rw [hlen3] at h
        obtain ⟨h2, h1⟩ := ih pending' (done ++ [binOverwriteLayer bl L])
          ({ net with layers := done ++
            { L with neurons := [] ++ overwriteBinNeurons bl.neurons L.neurons } :: pending' })
          rr.2.1 rest r (by simp [binOverwriteLayer]) hcount2 h
        refine ⟨h2, ?_⟩
        rw [h1]
        refine ann_net.ext rfl rfl rfl rfl ?_ rfl
        show done ++ [binOverwriteLayer bl L] ++ List.zipWith binOverwriteLayer bls pending'
          = done ++ List.zipWith binOverwriteLayer (bl :: bls) (L :: pending')
        simp [List.zipWith]

theorem zipWith_overwrite_map (bls : List BinLayerDoc) :
    List.zipWith binOverwriteLayer bls (bls.map binFreshLayer) =
      bls.map (fun bl => binOverwriteLayer bl (binFreshLayer bl)) := by
  induction bls with
  | nil => rfl
  | cons b bs ih => simp [ih]

/-- The binary synapse pass never renumbers anything. -/
theorem ann_load_synapses_bin_idShape (syns : List (Int × Int × Int × Int × ℝ)) :
    ∀ (hash : Hash) (net : ann_net),
    (ann_load_synapses_bin hash (encodeBinSyns syns) net).1 = true →
    idShape (ann_load_synapses_bin hash (encodeBinSyns syns) net).2 = idShape net := by
  induction syns with
  | nil =>
    intro hash net _
    rfl
  | cons s rest ih =>
    obtain ⟨lf, nf, lt, nt, w⟩ := s
    intro hash net h
    simp only [encodeBinSyns, ann_load_synapses_bin] at h ⊢
    cases hf1 : findHash hash (lf, nf) with
    | none => simp [hf1] at h
    | some fromPos =>
      simp only [hf1] at h ⊢
      cases hf2 : findHash hash (lt, nt) with
      | none => simp [hf1, hf2] at h
      | some toPos =>
        simp only [hf2] at h ⊢
        rw [ih hash _ h]
        exact idShape_ann_add_synapse net fromPos toPos w

/-- Binary half of id stability. -/
theorem bin_id_stability (d : BinNetDoc) (net : ann_net)
    (h : ann_load_net_bin (encodeBinNet d) = some net) : idShape net = binDocIdShape d := by
  have hstream : encodeBinNet d = lenStrToks d.name ++ (lenStrToks d.description ++
      (Tok.i (Int.ofNat d.layers.length) :: (encodeBinHeaders d.layers ++
        (encodeBinNeuronSecs d.layers ++ encodeBinSyns d.syns)))) := by
    simp [encodeBinNet, List.append_assoc]
  rw [hstream] at h
  simp only [ann_load_net_bin, readLenStr_lenStrToks] at h
  simp only [ann_load_layers_bin, readInt] at h
  rw [show (Int.ofNat d.layers.length).toNat = d.layers.length from rfl] at h
  cases hA : binLayersLoopA d.layers.length
      { ann_create_net with
        name := match d.name with | none => none | some s => if s.length = 0 then none else some s,
        description := match d.description with
          | none => none | some s => if s.length = 0 then none else some s }
      (encodeBinHeaders d.layers ++ (encodeBinNeuronSecs d.layers ++ encodeBinSyns d.syns)) with
  | none =>
    rw [hA] at h
    cases h
  | some rA =>
    rw [hA] at h
    obtain ⟨hA2, hA1⟩ := binLayersLoopA_enc d.layers _ _ rA hA
    have hcounts : rA.1.layers.map (fun l => l.neurons.length)
        = d.layers.map (fun bl => bl.neurons.length) := by
      rw [hA1]
      simp [ann_create_net, binFreshLayer, genNeurons_length, Function.comp]
    cases hB : binLayersLoopB rA.1.layers 0 rA.1 [] rA.2 with
    | none =>
      simp only [hB] at h
      cases h
    | some rB =>
      simp only [hB] at h
      have hBl : binLayersLoopB rA.1.layers ([] : List ann_layer).length rA.1 []
          (encodeBinNeuronSecs d.layers ++ encodeBinSyns d.syns) = some rB := by
        rw [← hA2]
        exact hB
      obtain ⟨hB2, hB1⟩ := binLayersLoopB_enc d.layers rA.1.layers [] rA.1 []
        (encodeBinSyns d.syns) rB rfl hcounts hBl
      rw [hB2] at h
      cases hok : (ann_load_synapses_bin rB.2.1 (encodeBinSyns d.syns) rB.1).1 with
      | false =>
        simp only [hok, if_false, Bool.false_eq_true, if_neg] at h
        cases h
      | true =>
        simp only [hok, if_true] at h
        injection h with h
        rw [← h, ann_load_synapses_bin_idShape d.syns rB.2.1 rB.1 hok, hB1]
        have hlayers : rA.1.layers = d.layers.map binFreshLayer := by
          rw [hA1]
          simp [ann_create_net]
        simp only [idShape, List.nil_append, hlayers, zipWith_overwrite_map, List.map_map]
        refine List.map_congr_left (fun bl _ => ?_)
        exact congrArg (Prod.mk bl.id)
          (overwriteBinNeurons_map_id bl.neurons _ (by simp [binFreshLayer, genNeurons_length]))

/-- C9: after every successful import, in both the text and the binary
codec, each neuron of the resulting net carries exactly the
`(layer-id, neuron-id)` pair stored for it in the serialized form, and
each layer its stored id — the loaders perform no renumbering. -/
theorem C9_id_stability :
    (∀ (d : TextNetDoc) (net : ann_net),
        ann_load_net (encodeTextNet d) = some net → idShape net = textDocIdShape d) ∧
    (∀ (d : BinNetDoc) (net : ann_net),
        ann_load_net_bin (encodeBinNet d) = some net → idShape net = binDocIdShape d) :=
  ⟨text_id_stability, bin_id_stability⟩

/-- Witness for id stability: one concrete document per codec. -/
theorem C9_id_stability_witness :
    (∃ net, ann_load_net (encodeTextNet d9text) = some net ∧
      idShape net = textDocIdShape d9text) ∧
    (∃ net, ann_load_net_bin (encodeBinNet d9bin) = some net ∧
      idShape net = binDocIdShape d9bin) :=
  ⟨⟨_, rfl, C9_id_stability.1 d9text _ rfl⟩, ⟨_, rfl, C9_id_stability.2 d9bin _ rfl⟩⟩

/-! ## Feed-forward evaluation (C4): characterization of
ann_process_pattern -/

/-- getValue only depends on the layer the position points into. -/
theorem getValue_congr_layer (X Y : ann_net) (p : Pos)
    (h : X.layers.get? p.1 = Y.layers.get? p.1) : getValue X p = getValue Y p := by
  simp only [getValue, getNeuron]
  rw [h]

/-- The weighted input sum only reads the synapse store and the source
layers; with all sources below layer `j`, two states agreeing there give
the same sum. -/
theorem synTotal_congr (X Y : ann_net) (inputs : List Nat) (j : Nat)
    (hsyn : X.synapses = Y.synapses)
    (hval : ∀ p : Pos, p.1 < j → getValue X p = getValue Y p)
    (hff : ∀ r ∈ inputs, ∀ s, Y.synapses.get? r = some s → s.fromPos.1 < j) :
    synTotal X inputs = synTotal Y inputs := by
  induction inputs with
  | nil => rfl
  | cons r rest ih =>
    simp only [synTotal, hsyn]
    have h1 : (match Y.synapses.get? r with
        | some s => s.weight * getValue X s.fromPos
        | none => 0) = (match Y.synapses.get? r with
        | some s => s.weight * getValue Y s.fromPos
        | none => 0) := by
      cases hs : Y.synapses.get? r with
      | none => rfl
      | some s =>
        have hlt := hff r (List.mem_cons_self r rest) s hs
        show s.weight * getValue X s.fromPos = s.weight * getValue Y s.fromPos
        rw [hval s.fromPos hlt]
    rw [h1, ih (fun q hq s hs => hff q (List.mem_cons_of_mem r hq) s hs)]

/-- fireSpecVal transports along states that agree below the sources. -/
theorem fireSpecVal_congr (X Y : ann_net) (n : ann_neuron) (j : Nat)
    (hsyn : X.synapses = Y.synapses)
    (hval : ∀ p : Pos, p.1 < j → getValue X p = getValue Y p)
    (hff : ∀ r ∈ n.inputs, ∀ s, Y.synapses.get? r = some s → s.fromPos.1 < j) :
    fireSpecVal X n = fireSpecVal Y n := by
  cases hf : n.fire <;> simp only [fireSpecVal, hf]
  exact congrArg ann_sigmoid (synTotal_congr X Y n.inputs j hsyn hval hff)

/-- A live (non-NULL) firing function writes exactly fireSpecVal. -/
theorem fireValue_eq_spec (net : ann_net) (n : ann_neuron) (h : n.fire ≠ FireFunc.nullf) :
    fireValue net n = some (fireSpecVal net n) := by
  cases hf : n.fire <;> simp only [fireValue, fireSpecVal, hf]
  exact absurd hf h

/-- Values below a cursor-shaped state's open layer are independent of
the open layer's tail. -/
theorem getValue_prefix (net : ann_net) (done : List ann_layer) (X Y : List ann_layer)
    (p : Pos) (hp : p.1 < done.length) :
    getValue { net with layers := done ++ X } p = getValue { net with layers := done ++ Y } p :=
  getValue_congr_layer _ _ p (by
    show (done ++ X).get? p.1 = (done ++ Y).get? p.1
    rw [get?_append_left _ _ _ hp, get?_append_left _ _ _ hp])

/-- The per-layer firing loop writes each snapshot neuron exactly once,
with the value fireSpecVal computes from the state at entry to the
layer (feed-forward sources make the intermediate writes invisible). -/
theorem processNeurons_enc : ∀ (suf pre : List ann_neuron) (done pending : List ann_layer)
    (L : ann_layer) (net : ann_net),
    net.layers = done ++ L :: pending → L.neurons = pre ++ suf →
    (∀ n ∈ suf, n.fire ≠ FireFunc.nullf) →
    (∀ n ∈ suf, ∀ r ∈ n.inputs, ∀ s, net.synapses.get? r = some s →
      s.fromPos.1 < done.length) →
    processNeurons done.length suf pre.length net =
      some ({ net with layers := done ++
        { L with neurons := pre ++ suf.map (fun n => { n with value := fireSpecVal net n }) }
          :: pending }) := by
  intro suf
  induction suf with
  | nil =>
    intro pre done pending L net hlay hneu _ _
    show some net = _
    have h1 : pre ++ ([] : List ann_neuron).map (fun n => { n with value := fireSpecVal net n }) = L.neurons := by
      rw [hneu]
      simp
    have hL : ({ L with neurons := pre ++ ([] : List ann_neuron).map (fun n => { n with value := fireSpecVal net n }) } : ann_layer) = L := by
      rw [h1]
    rw [hL, ← hlay]
  | cons n suf' ih =>
    intro pre done pending L net hlay hneu htags hff
    have hnet' : setValue net (done.length, pre.length) (fireSpecVal net n) = { net with layers := done ++ { L with neurons := pre ++ { n with value := fireSpecVal net n } :: suf' } :: pending } := by
      simp only [setValue, modifyNeuron]
      rw [hlay, updList_append_cons, hneu, updList_append_cons]
    have hspecAll : ∀ m ∈ suf', fireSpecVal ({ net with layers := done ++ { L with neurons := pre ++ { n with value := fireSpecVal net n } :: suf' } :: pending } : ann_net) m = fireSpecVal net m := by
      intro m hm
      refine fireSpecVal_congr _ _ m done.length rfl (fun p hp => ?_)
        (fun r hr s hs => hff m (List.mem_cons_of_mem n hm) r hr s hs)
      have hY : getValue net p = getValue { net with layers := done ++ L :: pending } p := by
        rw [show ({ net with layers := done ++ L :: pending } : ann_net) = net by rw [← hlay]]
      rw [hY]
      exact getValue_prefix net done _ _ p hp
    have hih := ih (pre ++ [{ n with value := fireSpecVal net n }]) done pending { L with neurons := pre ++ { n with value := fireSpecVal net n } :: suf' } ({ net with layers := done ++ { L with neurons := pre ++ { n with value := fireSpecVal net n } :: suf' } :: pending }) rfl (by simp) (fun m hm => htags m (List.mem_cons_of_mem n hm)) (fun m hm r hr s hs => hff m (List.mem_cons_of_mem n hm) r hr s hs)
    show (match fireValue net n with
      | none => none
      | some v => processNeurons done.length suf' (pre.length + 1)
          (setValue net (done.length, pre.length) v)) = _
    rw [fireValue_eq_spec net n (htags n (List.mem_cons_self n suf'))]
    show processNeurons done.length suf' (pre.length + 1)
        (setValue net (done.length, pre.length) (fireSpecVal net n)) = _
    rw [hnet']
    rw [show pre.length + 1 = (pre ++ [{ n with value := fireSpecVal net n }]).length by simp]
    rw [hih]
    have hmap : suf'.map (fun m => { m with value := fireSpecVal ({ net with layers := done ++ { L with neurons := pre ++ { n with value := fireSpecVal net n } :: suf' } :: pending } : ann_net) m }) = suf'.map (fun m => { m with value := fireSpecVal net m }) := by
      refine List.map_congr_left (fun m hm => ?_)
      rw [hspecAll m hm]
    rw [hmap]
    refine congrArg some (ann_net.ext rfl rfl rfl rfl ?_ rfl)
    simp only [List.map_cons, List.append_assoc, List.cons_append, List.nil_append]

/-- The outer loop of ann_process_pattern: on a feed-forward suffix of
layers it succeeds, returns the index of the last layer processed, fires
every pending layer exactly once, and leaves everything else (synapse
store, layers already done) untouched.  Each fired value is stated
against the final state, which agrees with the state the neuron actually
read thanks to feed-forwardness. -/
theorem processFrom_enc : ∀ (pending done : List ann_layer) (net : ann_net) (last : Option Nat),
    net.layers = done ++ pending →
    (∀ k L, pending.get? k = some L → ∀ n ∈ L.neurons, n.fire ≠ FireFunc.nullf) →
    (∀ k L, pending.get? k = some L → ∀ n ∈ L.neurons, ∀ r ∈ n.inputs, ∀ s, net.synapses.get? r = some s → s.fromPos.1 < done.length + k) →
    ∃ netF : ann_net,
      processFrom pending done.length net last = some ((if pending.length = 0 then last else some (done.length + pending.length - 1)), netF) ∧
      netF.synapses = net.synapses ∧
      netF.layers.length = net.layers.length ∧
      (∀ q, q < done.length → netF.layers.get? q = net.layers.get? q) ∧
      (∀ k L, pending.get? k = some L → netF.layers.get? (done.length + k) = some (fireLayer netF L)) := by
  intro pending
  induction pending with
  | nil =>
    intro done net last hlay _ _
    refine ⟨net, ?_, rfl, rfl, fun q _ => rfl, fun k L hk => by simp at hk⟩
    simp [processFrom]
  | cons L pending' ih =>
    intro done net last hlay htags hff
    have ht0 : ∀ n ∈ L.neurons, n.fire ≠ FireFunc.nullf := htags 0 L rfl
    have hf0 : ∀ n ∈ L.neurons, ∀ r ∈ n.inputs, ∀ s, net.synapses.get? r = some s → s.fromPos.1 < done.length := fun n hn r hr s hs => hff 0 L rfl n hn r hr s hs
    have hpn : processNeurons done.length L.neurons 0 net = some (firedNet net done L pending') := by
      have h := processNeurons_enc L.neurons [] done pending' L net hlay rfl ht0 hf0
      simp only [List.length_nil, List.nil_append] at h
      exact h
    have hstep : processFrom (L :: pending') done.length net last = processFrom pending' (done.length + 1) (firedNet net done L pending') (some done.length) := by
      show (match processNeurons done.length L.neurons 0 net with
        | none => none
        | some net' => processFrom pending' (done.length + 1) net' (some done.length)) = _
      rw [hpn]
    obtain ⟨netF, heq, hsyn, hlen, hframe, hlayers⟩ :=
      ih (done ++ [fireLayer net L]) (firedNet net done L pending') (some done.length)
        (by simp [firedNet])
        (fun k Lk hk => htags (k + 1) Lk hk)
        (fun k Lk hk n hn r hr s hs => by
          have h := hff (k + 1) Lk hk n hn r hr s hs
          simp only [List.length_append, List.length_cons, List.length_nil, Nat.zero_add]
          omega)
    simp only [List.length_append, List.length_cons, List.length_nil, Nat.zero_add] at heq hframe hlayers
    have hsyn' : netF.synapses = net.synapses := hsyn
    have hframe0 : ∀ q, q < done.length → netF.layers.get? q = net.layers.get? q := by
      intro q hq
      rw [hframe q (Nat.lt_succ_of_lt hq)]
      show (done ++ fireLayer net L :: pending').get? q = net.layers.get? q
      rw [get?_append_left _ _ _ hq, hlay, get?_append_left _ _ _ hq]
    have hfire0 : fireLayer net L = fireLayer netF L := by
      simp only [fireLayer]
      refine congrArg (fun ns => { L with neurons := ns }) (List.map_congr_left (fun n hn => ?_))
      have hv : fireSpecVal net n = fireSpecVal netF n := by
        refine fireSpecVal_congr net netF n done.length hsyn'.symm (fun p hp => ?_)
          (fun r hr s hs => hf0 n hn r hr s (by rw [← hsyn']; exact hs))
        exact (getValue_congr_layer net netF p (hframe0 p.1 hp).symm)
      rw [hv]
    refine ⟨netF, ?_, hsyn', ?_, hframe0, ?_⟩
    · have harith : (if pending'.length = 0 then some done.length else some (done.length + 1 + pending'.length - 1)) = some (done.length + pending'.length) := by
        rcases Nat.eq_zero_or_pos pending'.length with h0 | h0
        · rw [if_pos h0, h0]
          rfl
        · rw [if_neg (Nat.pos_iff_ne_zero.mp h0)]
          congr 1
          omega
      have harith2 : (if (L :: pending').length = 0 then last else some (done.length + (L :: pending').length - 1)) = some (done.length + pending'.length) := by
        rw [if_neg (by simp)]
        congr 1
      rw [hstep, heq, harith, harith2]
    · rw [hlen]
      show (done ++ fireLayer net L :: pending').length = net.layers.length
      rw [hlay]
      simp
    · intro k Lk hk
      cases k with
      | zero =>
        have hLk : L = Lk := Option.some.inj hk
        rw [← hLk]
        rw [show done.length + 0 = done.length from rfl]
        rw [hframe done.length (Nat.lt_succ_self _)]
        show (done ++ fireLayer net L :: pending').get? done.length = _
        rw [get?_append_cons, hfire0]
      | succ k' =>
        have hk' : pending'.get? k' = some Lk := hk
        have h := hlayers k' Lk hk'
        rw [show done.length + (k' + 1) = done.length + 1 + k' by omega]
        exact h

/-- C4: on a net with at least two layers whose non-first layers are
feed-forward (every input synapse reads a strictly earlier layer) and
carry live firing functions, ann_process_pattern succeeds and returns the
last layer: the input vector is copied element-wise into the first
layer's values (trailing neurons keep their prior value when the vector
is short), and each neuron of every subsequent layer is written per its
behavior — input/pass-through keeps its value, bias becomes 1, sigmoid
becomes 1/(1+exp(−Σ weight·source.value)) over its input synapses. -/
theorem C4_process_pattern (net : ann_net) (v : List ℝ)
    (h2 : 2 ≤ net.layers.length)
    (htags : ∀ j L, net.layers.get? j = some L → 1 ≤ j → ∀ n ∈ L.neurons, n.fire ≠ FireFunc.nullf)
    (hff : ∀ j L, net.layers.get? j = some L → 1 ≤ j → ∀ n ∈ L.neurons, ∀ r ∈ n.inputs, ∀ s, net.synapses.get? r = some s → s.fromPos.1 < j) :
    ∃ netF : ann_net,
      ann_process_pattern net v = some (some (net.layers.length - 1), netF) ∧
      netF.synapses = net.synapses ∧
      (∀ L0, net.layers.get? 0 = some L0 → ∀ i n, L0.neurons.get? i = some n →
        getValue netF (0, i) = if i < v.length then v.getD i 0 else n.value) ∧
      (∀ j L, net.layers.get? j = some L → 1 ≤ j → ∀ i n, L.neurons.get? i = some n →
        (n.fire = FireFunc.input → getValue netF (j, i) = n.value) ∧
        (n.fire = FireFunc.bias → getValue netF (j, i) = 1) ∧
        (n.fire = FireFunc.sigmoid → getValue netF (j, i) = ann_sigmoid (synTotal netF n.inputs))) := by
  cases hnl : net.layers with
  | nil =>
    rw [hnl] at h2
    simp at h2
  | cons l0 rest =>
    have hN0 : (setInputs net v).layers = ({ l0 with neurons := copyVals v l0.neurons }) :: rest := by
      show updList net.layers 0 _ = _
      rw [hnl]
      rfl
    have hrest1 : 1 ≤ rest.length := by
      rw [hnl] at h2
      simp only [List.length_cons] at h2
      omega
    obtain ⟨netF, heq, hsyn, hlen, hframe, hlast⟩ :=
      processFrom_enc rest [{ l0 with neurons := copyVals v l0.neurons }] (setInputs net v) none
        (by rw [hN0]; rfl)
        (fun k L hk => htags (k + 1) L (by rw [hnl]; exact hk) (by omega))
        (fun k L hk n hn r hr s hs => by
          have h := hff (k + 1) L (by rw [hnl]; exact hk) (by omega) n hn r hr s hs
          simp only [List.length_cons, List.length_nil, Nat.zero_add]
          omega)
    simp only [List.length_cons, List.length_nil, Nat.zero_add] at heq hframe hlast
    refine ⟨netF, ?_, hsyn, ?_, ?_⟩
    · have hpp : ann_process_pattern net v = processFrom rest 1 (setInputs net v) none := by
        show (match net.layers with
          | [] => none
          | _ :: r => processFrom r 1 (setInputs net v) none) = _
        rw [hnl]
      rw [hpp, heq, if_neg (by omega)]
      simp only [List.length_cons]
      have harith : 1 + rest.length - 1 = rest.length + 1 - 1 := by omega
      rw [harith]
    · intro L0 h0 i n hn
      have hL0 : l0 = L0 := Option.some.inj h0
      subst hL0
      have hg : netF.layers.get? 0 = some ({ l0 with neurons := copyVals v l0.neurons }) := by
        rw [hframe 0 (by omega), hN0]
        rfl
      show getValue netF (0, i) = _
      show (match (match netF.layers.get? 0 with
        | some l => l.neurons.get? i
        | none => none) with
        | some m => m.value
        | none => 0) = _
      simp only [hg]
      rw [copyVals_get?]
      by_cases hi : i < v.length
      · rw [if_pos hi, if_pos hi, hn]
        rfl
      · rw [if_neg hi, if_neg hi, hn]
    · intro j L hj h1 i n hn
      cases j with
      | zero => omega
      | succ k =>
        have hk : rest.get? k = some L := hj
        have hg2 : netF.layers.get? (k + 1) = some (fireLayer netF L) := by
          rw [show k + 1 = 1 + k by omega]
          exact hlast k L hk
        have hval : getValue netF (k + 1, i) = (match (L.neurons.map (fun m => { m with value := fireSpecVal netF m })).get? i with | some m => m.value | none => 0) := by
          show (match (match netF.layers.get? (k + 1) with
            | some l => l.neurons.get? i
            | none => none) with
            | some m => m.value
            | none => 0) = _
          simp only [hg2, fireLayer]
        have hvn : getValue netF (k + 1, i) = fireSpecVal netF n := by
          rw [hval, List.get?_map, hn]
          rfl
        refine ⟨fun hf => ?_, fun hf => ?_, fun hf => ?_⟩ <;>
          rw [hvn] <;> simp only [fireSpecVal, hf]

/-- Witness for C4: the two-layer net with one input neuron feeding one
sigmoid neuron through a weight-1 synapse satisfies feed-forwardness and
has live firing functions, so the evaluation characterization holds for
it on the input vector [0]. -/
theorem C4_process_pattern_witness :
    ∃ netF : ann_net,
      ann_process_pattern c4wnet [(0 : ℝ)] = some (some (c4wnet.layers.length - 1), netF) ∧
      netF.synapses = c4wnet.synapses ∧
      (∀ L0, c4wnet.layers.get? 0 = some L0 → ∀ i n, L0.neurons.get? i = some n →
        getValue netF (0, i) = if i < [(0 : ℝ)].length then [(0 : ℝ)].getD i 0 else n.value) ∧
      (∀ j L, c4wnet.layers.get? j = some L → 1 ≤ j → ∀ i n, L.neurons.get? i = some n →
        (n.fire = FireFunc.input → getValue netF (j, i) = n.value) ∧
        (n.fire = FireFunc.bias → getValue netF (j, i) = 1) ∧
        (n.fire = FireFunc.sigmoid → getValue netF (j, i) = ann_sigmoid (synTotal netF n.inputs))) :=
  C4_process_pattern c4wnet [(0 : ℝ)] (Nat.le_refl 2)
    (by
      intro j L hj h1 n hn
      cases j with
      | zero => omega
      | succ k =>
        cases k with
        | zero =>
          have hL : ({ id := 1, neuron_ctr := 1, num_neurons := 1, neurons := [{ id := 0, synapse_ctr := 0, value := 0, fire := FireFunc.sigmoid, inputs := [0], outputs := [] }] } : ann_layer) = L := Option.some.inj hj
          rw [← hL] at hn
          simp only [List.mem_singleton] at hn
          rw [hn]
          simp
        | succ k2 => exact Option.noConfusion hj)
    (by
      intro j L hj h1 n hn r hr s hs
      cases j with
      | zero => omega
      | succ k =>
        cases k with
        | zero =>
          have hL : ({ id := 1, neuron_ctr := 1, num_neurons := 1, neurons := [{ id := 0, synapse_ctr := 0, value := 0, fire := FireFunc.sigmoid, inputs := [0], outputs := [] }] } : ann_layer) = L := Option.some.inj hj
          rw [← hL] at hn
          simp only [List.mem_singleton] at hn
          rw [hn] at hr
          simp only [List.mem_singleton] at hr
          rw [hr] at hs
          have hsr : ({ id := 0, fromPos := (0, 0), toPos := (1, 0), weight := 1 } : ann_synapse) = s := Option.some.inj hs
          rw [← hsr]
          exact Nat.zero_lt_one
        | succ k2 => exact Option.noConfusion hj)

end NN
